import Mathlib

/-!
Verification of the SchemaInfo alias/mutability analysis
(torch/csrc/utils/schema_info.cpp).

The core analysis (value binding, classification, alias-map generation and
the query engine) is embedded faithfully from the source.  The external
collaborators (the schema model, the type-to-alias-set mapping, the value
interface and the operator-tag registry) are modelled from the
specification, as noted on each definition.
-/

set_option maxHeartbeats 1000000

namespace SchemaInfoSpec

/-! ## Data model -/

/-- Role of a schema slot: an argument (input) or a return (output). -/
inductive SchemaArgType
  | input
  | output
deriving DecidableEq, Repr

/-- Reference to one argument or return slot, identified by role and index. -/
structure SchemaArgument where
  type : SchemaArgType
  index : Nat
deriving DecidableEq, Repr

/-- Modelled from the spec: the schema model type language, enough to express
the operator schemas the analysis special-cases (tensors, optionals,
lists and the primitive non-aliasable types). -/
inductive SchemaType
  | tensor
  | boolT
  | floatT
  | intT
  | optionalT (t : SchemaType)
  | listOf (t : SchemaType)
deriving DecidableEq, Repr

/-- Modelled from the spec: a declared alias annotation with its after-set
names, a write (mutation) flag and a wildcard-after flag. -/
structure AliasInfo where
  afterSets : List String
  isWrite : Bool
  isWildcardAfter : Bool
deriving DecidableEq, Repr

/-- Modelled from the spec: one schema argument or return slot with its
name, type and optional alias annotation. -/
structure Argument where
  name : String
  type : SchemaType
  alias_info : Option AliasInfo
deriving DecidableEq, Repr

instance : Inhabited Argument := ⟨⟨"", SchemaType.tensor, none⟩⟩

/-- Modelled from the spec: an operator schema, with the name, overload
name, ordered argument list and ordered return list that the analysis
consumes (equality comparison is structural, as in the schema model). -/
structure FunctionSchema where
  name : String
  overload_name : String
  arguments : List Argument
  returns : List Argument
deriving DecidableEq, Repr

/-- The argument list for role input, the return list for role output. -/
def FunctionSchema.getCorrectList (s : FunctionSchema) : SchemaArgType → List Argument
  | .input => s.arguments
  | .output => s.returns

/-- First index of an argument with the given name, if any. -/
def findIndexNamed (name : String) : List Argument → Option Nat
  | [] => none
  | a :: rest =>
    if a.name = name then some 0 else (findIndexNamed name rest).map (· + 1)

/-- Modelled from the spec: the name-to-index lookup of the schema model. -/
def FunctionSchema.argumentIndexWithName (s : FunctionSchema) (name : String) : Option Nat :=
  findIndexNamed name s.arguments

/-- Modelled from the spec: given a type, its alias-relevant type set, or
none when values of the type are never aliasable.  Tensors and lists are
aliasable, optionals defer to their payload, primitives are not. -/
def mapTypeToAliasTypeSet : SchemaType → Option (List SchemaType)
  | .tensor => some [.tensor]
  | .listOf t => some [.listOf t]
  | .optionalT t => mapTypeToAliasTypeSet t
  | _ => none

/-- Modelled from the spec: whether two alias type sets allow aliasing at
all; none (non-aliasable) never aliases, otherwise the sets must meet. -/
def canAliasTypeSetsAlias : Option (List SchemaType) → Option (List SchemaType) → Bool
  | some l, some r => l.any fun t => r.contains t
  | _, _ => false

/-- Modelled from the spec: the aliasable types a value of the given type
can structurally contain (list element types). -/
def containedTypes : SchemaType → List SchemaType
  | .listOf t => (mapTypeToAliasTypeSet t).getD []
  | _ => []

/-- Modelled from the spec: contained-type extraction lifted to alias type
sets. -/
def getAliasTypeSetContainedTypes : Option (List SchemaType) → Option (List SchemaType)
  | some ts => some (ts.foldl (fun acc t => acc ++ containedTypes t) [])
  | none => none

/-- Modelled from the spec: the schema model per-slot static mutability
predicate, true when the slot carries a write-marked alias annotation. -/
def FunctionSchema.is_mutable (s : FunctionSchema) (arg : SchemaArgument) : Bool :=
  match ((s.getCorrectList arg.type).getD arg.index default).alias_info with
  | some ai => ai.isWrite
  | none => false

/-- Modelled from the spec: the schema model declared may-alias predicate
between two slots: their types must be able to alias and their after-sets
must share a name. -/
def FunctionSchema.may_alias (s : FunctionSchema) (lhs rhs : SchemaArgument) : Bool :=
  let lhsArg := (s.getCorrectList lhs.type).getD lhs.index default
  let rhsArg := (s.getCorrectList rhs.type).getD rhs.index default
  if canAliasTypeSetsAlias (mapTypeToAliasTypeSet lhsArg.type) (mapTypeToAliasTypeSet rhsArg.type) then
    match lhsArg.alias_info, rhsArg.alias_info with
    | some la, some ra => la.afterSets.any fun x => ra.afterSets.contains x
    | _, _ => false
  else
    false

/-! ## Values -/

/-- Modelled from the spec: the runtime value interface; tensors carry a
storage identity used by the identity-based alias check. -/
inductive IValue
  | tensor (storage : Nat)
  | boolV (b : Bool)
  | list (elems : List IValue)
  | noneV

/-- Modelled from the spec: identity-based alias check between two bound
values (same underlying storage). -/
def IValue.isAliasOf : IValue → IValue → Bool
  | .tensor a, .tensor b => a == b
  | _, _ => false

/-- Modelled from the spec: extraction of a boolean payload. -/
def IValue.toBool : IValue → Bool
  | .boolV b => b
  | _ => false

mutual

/-- Modelled from the spec: enumeration of the reachable sub-values of a
value, used for containment discovery. -/
def IValue.getSubValues : IValue → List IValue
  | .tensor k => [.tensor k]
  | .list xs => .list xs :: IValue.getSubValuesList xs
  | _ => []

/-- Sub-value enumeration over a list of values. -/
def IValue.getSubValuesList : List IValue → List IValue
  | [] => []
  | v :: vs => v.getSubValues ++ IValue.getSubValuesList vs

end

/-- Modelled from the spec: membership of a value in a collection of
sub-values under the identity-based alias comparison. -/
def aliasedMem (l : List IValue) (v : IValue) : Bool :=
  l.any fun u => u.isAliasOf v

/-! ## Small set and map helpers (unordered_set / unordered_map semantics) -/

/-- The binding map from argument name to bound value. -/
abbrev VMap := List (String × IValue)

/-- Overwrite-or-add one binding. -/
def VMap.insertVal (m : VMap) (k : String) (v : IValue) : VMap := (k, v) :: m

/-- Lookup of one binding. -/
def VMap.lookupVal (m : VMap) (k : String) : Option IValue :=
  match m with
  | [] => none
  | (k1, v) :: rest => if k1 = k then some v else VMap.lookupVal rest k

/-- Set insertion on a duplicate-free list (unordered_set::insert). -/
def insElem {α : Type} [BEq α] (l : List α) (x : α) : List α :=
  if l.contains x then l else x :: l

/-- Update the entry of an indexed family of index sets in place. -/
def updAt : List (List Nat) → Nat → (List Nat → List Nat) → List (List Nat)
  | [], _, _ => []
  | a :: t, 0, f => f a :: t
  | a :: t, i + 1, f => a :: updAt t i f

/-- Membership query on an indexed family of index sets. -/
def memMap (m : List (List Nat)) (i j : Nat) : Bool := (m.getD i []).contains j

/-! ## Analysis state -/

/-- The analysis instance: the schema under analysis, the value binding
map, the staleness flag, the wildcard and container classifications, the
two derived alias maps, and the diagnostics emitted so far
(SchemaInfo in schema_info.h / schema_info.cpp). -/
structure SchemaInfo where
  schema : FunctionSchema
  value_map : VMap
  alias_maps_current : Bool
  wildcard_set : List SchemaArgument
  container_set : List SchemaArgument
  input_alias_map : List (List Nat)
  output_alias_map : List (List Nat)
  warnings : List String

/-! ## Classification builder (SchemaInfo::initSchemaInfo) -/

/-- Accumulator of the duplicate-name scan over one after-set list:
the names already seen in the current list, the duplicate names found so
far, and the warnings emitted so far. -/
structure ScanAcc where
  seen : List String
  duplicates : List String
  warnings : List String

/-- Scan of the after-sets of one annotation: a name already seen in the
current list is recorded as a duplicate and warned about, a new name is
added to the seen set (inner loop of initSchemaInfo). -/
def scanSets (sets : List String) (acc : ScanAcc) : ScanAcc :=
  match sets with
  | [] => acc
  | s :: rest =>
    if acc.seen.contains s then
      scanSets rest { acc with duplicates := insElem acc.duplicates s, warnings := acc.warnings ++ [s] }
    else
      scanSets rest { acc with seen := s :: acc.seen }

/-- Accumulator of the classification pass: the wildcard set, the
container set, the duplicate names and the warnings. -/
structure InitAcc where
  wildcard : List SchemaArgument
  container : List SchemaArgument
  duplicates : List String
  warnings : List String

/-- The alias-annotation part of one iteration of the classification
scan: a wildcard-after entry goes to the wildcard set directly, any other
annotated entry has its after-sets scanned for duplicates. -/
def aliasStep (ty : SchemaArgType) (i : Nat) (arg : Argument) (seen : List String)
    (acc : InitAcc) : List String × InitAcc :=
  match arg.alias_info with
  | some ai =>
    if ai.isWildcardAfter then
      (seen, { acc with wildcard := insElem acc.wildcard ⟨ty, i⟩ })
    else
      let r := scanSets ai.afterSets ⟨seen, acc.duplicates, acc.warnings⟩
      (r.seen, { acc with duplicates := r.duplicates, warnings := r.warnings })
  | none => (seen, acc)

/-- The container-classification part of one iteration of the scan: an
entry whose type has a nonempty contained alias type set goes to the
container set. -/
def containerStep (ty : SchemaArgType) (i : Nat) (t : SchemaType) (acc : InitAcc) : InitAcc :=
  match getAliasTypeSetContainedTypes (mapTypeToAliasTypeSet t) with
  | some ts =>
    if ts.length > 0 then { acc with container := insElem acc.container ⟨ty, i⟩ } else acc
  | none => acc

/-- One-list classification scan (the init_schema_arguments lambda of
initSchemaInfo): wildcard-after entries go to the wildcard set directly,
other annotated entries have their after-sets scanned for duplicate names,
and every entry with a containing type goes to the container set.  The
seen set is local to the list, the duplicates and warnings are shared. -/
def scanArguments (ty : SchemaArgType) :
    List Argument → Nat → List String → InitAcc → InitAcc
  | [], _, _, acc => acc
  | arg :: rest, i, seen, acc =>
    let step := aliasStep ty i arg seen acc
    scanArguments ty rest (i + 1) step.1 (containerStep ty i arg.type step.2)

/-- The conservativity pass over one list (SchemaInfo::ensureConservativity):
every entry whose after-sets meet the duplicate-name set is forced into the
wildcard set. -/
def ensureConservativityGo (duplicates : List String) :
    List Argument → SchemaArgType → Nat → List SchemaArgument → List SchemaArgument
  | [], _, _, w => w
  | arg :: rest, ty, i, w =>
    let w1 :=
      match arg.alias_info with
      | some ai =>
        ai.afterSets.foldl (fun acc set => if duplicates.contains set then insElem acc ⟨ty, i⟩ else acc) w
      | none => w
    ensureConservativityGo duplicates rest ty (i + 1) w1

/-- Construction of an analysis instance over a schema: classification of
both lists, then the conservativity pass over both lists; bindings empty,
alias maps stale (SchemaInfo constructor plus initSchemaInfo). -/
def SchemaInfo.init (schema : FunctionSchema) : SchemaInfo :=
  let acc1 := scanArguments .input schema.arguments 0 [] ⟨[], [], [], []⟩
  let acc2 := scanArguments .output schema.returns 0 [] acc1
  let w1 := ensureConservativityGo acc2.duplicates schema.arguments .input 0 acc2.wildcard
  let w2 := ensureConservativityGo acc2.duplicates schema.returns .output 0 w1
  { schema := schema
    value_map := []
    alias_maps_current := false
    wildcard_set := w2
    container_set := acc2.container
    input_alias_map := []
    output_alias_map := []
    warnings := acc2.warnings }

/-! ## Alias map generator (SchemaInfo::generateAliasMaps) -/

/-- The name of the input argument at an index. -/
def argName (schema : FunctionSchema) (i : Nat) : String :=
  (schema.arguments.getD i default).name

/-- The ordered upper-triangle pair list of the first loop of
generateAliasMaps: i over all inputs, j from i upward. -/
def upperPairs (n : Nat) : List (Nat × Nat) :=
  (List.range n).flatMap fun i => ((List.range n).filter fun j => i ≤ j).map fun j => (i, j)

/-- The ordered full square pair list of the second and third loops. -/
def squarePairs (n m : Nat) : List (Nat × Nat) :=
  (List.range n).flatMap fun i => (List.range m).map fun j => (i, j)

/-- One iteration of the first loop of generateAliasMaps: the diagonal
inserts the index into its own set; a distinct pair of bound,
identity-aliased values makes each index a member of the other set, and
wildcard membership of either propagates to the other. -/
def step1F (schema : FunctionSchema) (vm : VMap)
    (mw : List (List Nat) × List SchemaArgument) (p : Nat × Nat) :
    List (List Nat) × List SchemaArgument :=
  let m := mw.1
  let w := mw.2
  let i := p.1
  let j := p.2
  if i = j then
    (updAt m i (fun s => insElem s i), w)
  else
    match VMap.lookupVal vm (argName schema i), VMap.lookupVal vm (argName schema j) with
    | some vi, some vj =>
      if vi.isAliasOf vj then
        let m1 := updAt (updAt m i (fun s => insElem s j)) j (fun s => insElem s i)
        let w1 :=
          if w.contains ⟨.input, i⟩ then insElem w ⟨.input, j⟩
          else if w.contains ⟨.input, j⟩ then insElem w ⟨.input, i⟩
          else w
        (m1, w1)
      else (m, w)
    | _, _ => (m, w)

/-- First loop of generateAliasMaps over a pair list. -/
def step1 (schema : FunctionSchema) (vm : VMap)
    (start : List (List Nat) × List SchemaArgument) (ps : List (Nat × Nat)) :
    List (List Nat) × List SchemaArgument :=
  ps.foldl (step1F schema vm) start

/-- One iteration of the second loop of generateAliasMaps: a bound value
found among the reachable sub-values of another bound, non-aliasing value
makes the contained argument a wildcard. -/
def step2F (schema : FunctionSchema) (vm : VMap) (imap : List (List Nat))
    (w : List SchemaArgument) (p : Nat × Nat) : List SchemaArgument :=
  let i := p.1
  let j := p.2
  if memMap imap i j then w
  else
    match VMap.lookupVal vm (argName schema i), VMap.lookupVal vm (argName schema j) with
    | some vi, some vj => if aliasedMem vi.getSubValues vj then insElem w ⟨.input, j⟩ else w
    | _, _ => w

/-- Second loop of generateAliasMaps over a pair list. -/
def step2 (schema : FunctionSchema) (vm : VMap) (imap : List (List Nat))
    (w : List SchemaArgument) (ps : List (Nat × Nat)) : List SchemaArgument :=
  ps.foldl (step2F schema vm imap) w

/-- One iteration of the third loop of generateAliasMaps: when the schema
declares that input i and output j may alias, a wildcard input makes the
output a wildcard and the full input alias set of i is united into the
output alias set of j. -/
def step3F (schema : FunctionSchema) (imap : List (List Nat))
    (ow : List (List Nat) × List SchemaArgument) (p : Nat × Nat) :
    List (List Nat) × List SchemaArgument :=
  let omap := ow.1
  let w := ow.2
  let i := p.1
  let j := p.2
  if schema.may_alias ⟨.input, i⟩ ⟨.output, j⟩ then
    let w1 := if w.contains ⟨.input, i⟩ then insElem w ⟨.output, j⟩ else w
    let o1 := updAt omap j (fun s => (imap.getD i []).foldl insElem s)
    (o1, w1)
  else (omap, w)

/-- Third loop of generateAliasMaps over a pair list. -/
def step3 (schema : FunctionSchema) (imap : List (List Nat))
    (start : List (List Nat) × List SchemaArgument) (ps : List (Nat × Nat)) :
    List (List Nat) × List SchemaArgument :=
  ps.foldl (step3F schema imap) start

/-- The three outputs of a regeneration pass, as a pure function of the
schema, the current bindings and the wildcard set at regeneration time:
the input alias map, the output alias map and the extended wildcard set
(the body of SchemaInfo::generateAliasMaps). -/
def genTriple (schema : FunctionSchema) (vm : VMap) (w : List SchemaArgument) :
    List (List Nat) × List (List Nat) × List SchemaArgument :=
  let n := schema.arguments.length
  let nr := schema.returns.length
  let p1 := step1 schema vm (List.replicate n [], w) (upperPairs n)
  let w2 := step2 schema vm p1.1 p1.2 (squarePairs n n)
  let p3 := step3 schema p1.1 (List.replicate nr [], w2) (squarePairs n nr)
  (p1.1, p3.1, p3.2)

/-- Regeneration of the alias maps from the current bindings
(SchemaInfo::generateAliasMaps): the maps are reset and rebuilt from
scratch, the wildcard set is extended in place, and the state is marked
fresh. -/
def SchemaInfo.generateAliasMaps (s : SchemaInfo) : SchemaInfo :=
  let t := genTriple s.schema s.value_map s.wildcard_set
  { s with
    alias_maps_current := true
    input_alias_map := t.1
    output_alias_map := t.2.1
    wildcard_set := t.2.2 }

/-- Lazy regeneration: the maps are rebuilt exactly when stale (the
`if (!alias_maps_current_) generateAliasMaps()` pattern of the queries). -/
def SchemaInfo.refresh (s : SchemaInfo) : SchemaInfo :=
  if s.alias_maps_current then s else s.generateAliasMaps

/-! ## Binding operations -/

/-- SchemaInfo::addArgumentValue: the name must be a declared argument
name (the assertion failure is modelled as none); the binding is stored
and the alias maps are marked stale. -/
def SchemaInfo.addArgumentValue (s : SchemaInfo) (name : String) (value : IValue) : Option SchemaInfo :=
  match s.schema.argumentIndexWithName name with
  | some _ => some { s with value_map := s.value_map.insertVal name value, alias_maps_current := false }
  | none => none

/-- SchemaInfo::addArgumentValues (positional list overload): the list
must not be longer than the argument list (assertion failure modelled as
none); each present entry is bound under the name of the argument at its
position and marks the maps stale. -/
def SchemaInfo.addArgumentValues (s : SchemaInfo) (value_list : List (Option IValue)) : Option SchemaInfo :=
  if value_list.length ≤ s.schema.arguments.length then
    some (value_list.enum.foldl
      (fun st iv =>
        match iv.2 with
        | some v =>
          { st with value_map := st.value_map.insertVal (argName st.schema iv.1) v,
                    alias_maps_current := false }
        | none => st)
      s)
  else none

/-- SchemaInfo::hasInputArgumentNamed. -/
def SchemaInfo.hasInputArgumentNamed (s : SchemaInfo) (name : String) : Bool :=
  s.schema.arguments.any fun a => a.name == name

/-! ## The fixed operator tables -/

/-- An optional tensor type. -/
def optT : SchemaType := .optionalT .tensor

/-- A plain tensor argument. -/
def argT (n : String) : Argument := ⟨n, .tensor, none⟩

/-- An optional tensor argument. -/
def argOT (n : String) : Argument := ⟨n, optT, none⟩

/-- A boolean argument. -/
def argB (n : String) : Argument := ⟨n, .boolT, none⟩

/-- A float argument. -/
def argF (n : String) : Argument := ⟨n, .floatT, none⟩

/-- An unannotated tensor return. -/
def retT : Argument := ⟨"", .tensor, none⟩

/-- An integer return. -/
def retI : Argument := ⟨"", .intT, none⟩

/-- A mutable tensor argument in a named alias set. -/
def argW (n : String) (set : String) : Argument := ⟨n, .tensor, some ⟨[set], true, false⟩⟩

/-- A mutable tensor return in a named alias set. -/
def retW (set : String) : Argument := ⟨"", .tensor, some ⟨[set], true, false⟩⟩

/-- The fixed normalization-operator table of SchemaInfo::getTrainingOps:
the parsed forms of the seven schemas whose running statistics mutability
depends on a boolean flag. -/
def getTrainingOps : List FunctionSchema :=
  [ ⟨"aten::batch_norm", "",
      [argT "input", argOT "weight", argOT "bias", argOT "running_mean", argOT "running_var",
       argB "training", argF "momentum", argF "eps", argB "cudnn_enabled"],
      [retT]⟩,
    ⟨"aten::instance_norm", "",
      [argT "input", argOT "weight", argOT "bias", argOT "running_mean", argOT "running_var",
       argB "use_input_stats", argF "momentum", argF "eps", argB "cudnn_enabled"],
      [retT]⟩,
    ⟨"aten::_batch_norm_impl_index", "",
      [argT "input", argOT "weight", argOT "bias", argOT "running_mean", argOT "running_var",
       argB "training", argF "momentum", argF "eps", argB "cudnn_enabled"],
      [retT, retT, retT, retT, retI]⟩,
    ⟨"aten::cudnn_batch_norm", "",
      [argT "input", argT "weight", argOT "bias", argOT "running_mean", argOT "running_var",
       argB "training", argF "exponential_average_factor", argF "epsilon"],
      [retT, retT, retT, retT]⟩,
    ⟨"aten::miopen_batch_norm", "",
      [argT "input", argT "weight", argOT "bias", argOT "running_mean", argOT "running_var",
       argB "training", argF "exponential_average_factor", argF "epsilon"],
      [retT, retT, retT]⟩,
    ⟨"aten::native_batch_norm", "",
      [argT "input", argOT "weight", argOT "bias", argOT "running_mean", argOT "running_var",
       argB "training", argF "momentum", argF "eps"],
      [retT, retT, retT]⟩,
    ⟨"aten::native_batch_norm", "out",
      [argT "input", argOT "weight", argOT "bias", argOT "running_mean", argOT "running_var",
       argB "training", argF "momentum", argF "eps",
       argW "out" "a", argW "save_mean" "b", argW "save_invstd" "c"],
      [retW "a", retW "b", retW "c"]⟩ ]

/-- The parsed form of
aten::dropout(Tensor input, float p, bool train) -> Tensor, the fixed
special case of SchemaInfo::is_nondeterministic. -/
def dropout_schema : FunctionSchema :=
  ⟨"aten::dropout", "", [argT "input", argF "p", argB "train"], [retT]⟩

/-! ## Query engine -/

/-- Modelled from the spec: the operator-tag registry, keyed by operator
name and overload name; none when the operator is not found, otherwise
whether it carries the non-deterministic tag. -/
abbrev TagRegistry := String → String → Option Bool

/-- SchemaInfo::is_nondeterministic: the dropout schema with train bound
false is deterministic; otherwise the tag registry answers (not found
means false). -/
def SchemaInfo.is_nondeterministic (reg : TagRegistry) (s : SchemaInfo) : Bool :=
  if s.schema == dropout_schema &&
      (match s.value_map.lookupVal "train" with
       | some v => !v.toBool
       | none => false) then
    false
  else
    match reg s.schema.name s.schema.overload_name with
    | some tagged => tagged
    | none => false

/-- The flag test of the normalization special case in
SchemaInfo::is_mutable: the named boolean argument exists and is unbound,
or is bound and evaluates true. -/
def flagTrue (s : SchemaInfo) (nm : String) : Bool :=
  (s.hasInputArgumentNamed nm && (s.value_map.lookupVal nm).isNone) ||
  (match s.value_map.lookupVal nm with
   | some v => v.toBool
   | none => false)

/-- SchemaInfo::is_mutable on a slot reference: the index must be in range
of the list for its role (assertion failure modelled as none); the maps
are refreshed when stale; the result is true when any index in the alias
set of the slot is either a running statistics argument of a training op
whose flag is unbound or bound true, or is statically mutable. -/
def SchemaInfo.is_mutable (s : SchemaInfo) (argument : SchemaArgument) : Option (Bool × SchemaInfo) :=
  if argument.index < (s.schema.getCorrectList argument.type).length then
    let s1 := s.refresh
    let correct_map :=
      match argument.type with
      | .input => s1.input_alias_map
      | .output => s1.output_alias_map
    let result := (correct_map.getD argument.index []).any fun aliasing_index =>
      let special_case :=
        (argName s1.schema aliasing_index == "running_mean") ||
        (argName s1.schema aliasing_index == "running_var")
      let is_training_op := getTrainingOps.any fun t => s1.schema == t
      if special_case && is_training_op then
        flagTrue s1 "training" || flagTrue s1 "train" || flagTrue s1 "use_input_stats"
      else
        s1.schema.is_mutable ⟨.input, aliasing_index⟩
    some (result, s1)
  else none

/-- SchemaInfo::is_mutable by name: the name must be a declared argument
name (assertion failure modelled as none), then the indexed form. -/
def SchemaInfo.is_mutable_name (s : SchemaInfo) (name : String) : Option (Bool × SchemaInfo) :=
  match s.schema.argumentIndexWithName name with
  | some idx => s.is_mutable ⟨.input, idx⟩
  | none => none

/-- SchemaInfo::may_alias: short-circuit on the declared schema predicate;
false when the two types cannot alias; otherwise refresh and answer from
the wildcard set and the role-appropriate alias map. -/
def SchemaInfo.may_alias (s : SchemaInfo) (lhs rhs : SchemaArgument) : Bool × SchemaInfo :=
  if s.schema.may_alias lhs rhs then (true, s)
  else
    let lhsT := mapTypeToAliasTypeSet ((s.schema.getCorrectList lhs.type).getD lhs.index default).type
    let rhsT := mapTypeToAliasTypeSet ((s.schema.getCorrectList rhs.type).getD rhs.index default).type
    if canAliasTypeSetsAlias lhsT rhsT then
      let s1 := s.refresh
      if s1.wildcard_set.contains lhs && s1.wildcard_set.contains rhs then (true, s1)
      else
        match lhs.type, rhs.type with
        | .input, .input => (memMap s1.input_alias_map lhs.index rhs.index, s1)
        | .output, .output =>
          ((s1.output_alias_map.getD lhs.index []).any fun x =>
            (s1.output_alias_map.getD rhs.index []).contains x, s1)
        | .output, .input => ((s1.output_alias_map.getD lhs.index []).contains rhs.index, s1)
        | .input, .output => ((s1.output_alias_map.getD rhs.index []).contains lhs.index, s1)
    else (false, s)

/-! ## Binding states -/

/-- Application of a sequence of by-name bindings; a binding that the
analysis rejects (unknown name) is skipped, so any sequence of successful
calls to addArgumentValue is covered. -/
def applyBindings (s : SchemaInfo) (bs : List (String × IValue)) : SchemaInfo :=
  bs.foldl
    (fun st p =>
      match st.addArgumentValue p.1 p.2 with
      | some st1 => st1
      | none => st)
    s

/-- The analysis state reached from a fresh instance over a schema by a
sequence of by-name bindings. -/
def stateOf (schema : FunctionSchema) (bs : List (String × IValue)) : SchemaInfo :=
  applyBindings (SchemaInfo.init schema) bs

/-- The boolean answer of the by-name mutability query. -/
def mutResult (s : SchemaInfo) (nm : String) : Option Bool :=
  (s.is_mutable_name nm).map Prod.fst

/-! ## Concrete schemas and helper measures used by the individual claims -/

/-- Binding of every flag name of the normalization family to false; names
absent from the schema are rejected by addArgumentValue and skipped. -/
def bindFlagsFalse (s : SchemaInfo) : SchemaInfo :=
  applyBindings s
    [("training", .boolV false), ("train", .boolV false), ("use_input_stats", .boolV false)]

/-- The per-schema check of the normalization-flag claim: with no
bindings the two running statistics arguments are mutable; with the flag
bound false they are not. -/
def checkTrainingOp (sch : FunctionSchema) : Bool :=
  let s0 := SchemaInfo.init sch
  let sF := bindFlagsFalse s0
  mutResult s0 "running_mean" == some true &&
  mutResult s0 "running_var" == some true &&
  mutResult sF "running_mean" == some false &&
  mutResult sF "running_var" == some false

/-- The example schema op(Tensor(a!) x, Tensor y) -> Tensor(a!). -/
def schemaC2 : FunctionSchema :=
  ⟨"op", "", [⟨"x", .tensor, some ⟨["a"], true, false⟩⟩, ⟨"y", .tensor, none⟩],
   [⟨"", .tensor, some ⟨["a"], true, false⟩⟩]⟩

/-- A minimal schema op2(Tensor x) -> Tensor with no alias annotations. -/
def schemaC4 : FunctionSchema := ⟨"op2", "", [⟨"x", .tensor, none⟩], [⟨"", .tensor, none⟩]⟩

/-- The schema test(Tensor a, Tensor[] b, Tensor(*) c) -> Tensor used to
exhibit wildcard residue across binding states. -/
def schema3 : FunctionSchema :=
  ⟨"test", "",
    [⟨"a", .tensor, none⟩, ⟨"b", .listOf .tensor, none⟩, ⟨"c", .tensor, some ⟨[], false, true⟩⟩],
    [⟨"", .tensor, none⟩]⟩

/-- Residue state: bind b to a list containing the tensor bound to a,
regenerate, then rebind b to an unrelated list. -/
def c3sA : SchemaInfo :=
  match ((stateOf schema3 [("b", .list [.tensor 5]), ("a", .tensor 5)]).refresh).addArgumentValue
      "b" (.list [.tensor 99]) with
  | some s => s
  | none => SchemaInfo.init schema3

/-- Fresh state with the same final binding map as the residue state. -/
def c3sB : SchemaInfo := stateOf schema3 [("b", .list [.tensor 99]), ("a", .tensor 5)]

/-- A two-tensor schema used to witness stale-then-bind aliasing. -/
def schemaC6 : FunctionSchema := ⟨"op6", "", [argT "p", argT "q"], [retT]⟩

/-- A regenerated (fresh-maps) state over the two-tensor schema. -/
def c6s0 : SchemaInfo := (stateOf schemaC6 []).refresh

/-- The state after binding p to a tensor in the fresh-maps state. -/
def c6s1 : SchemaInfo :=
  match c6s0.addArgumentValue "p" (.tensor 7) with
  | some s => s
  | none => c6s0

/-- The state after further binding q to the identity-aliased tensor. -/
def c6s2 : SchemaInfo :=
  match c6s1.addArgumentValue "q" (.tensor 7) with
  | some s => s
  | none => c6s1

/-- Number of occurrences of a name in a list of names. -/
def countOcc (x : String) (l : List String) : Nat := (l.filter (· == x)).length

/-- Number of occurrences of an alias-set name in the after-sets of one
entry, as seen by the duplicate scan (wildcard-after entries are not
scanned). -/
def argOcc (S : String) (arg : Argument) : Nat :=
  match arg.alias_info with
  | some ai => if ai.isWildcardAfter then 0 else countOcc S ai.afterSets
  | none => 0

/-- Total scanned occurrences of an alias-set name over one list. -/
def listOcc (S : String) (args : List Argument) : Nat :=
  (args.map (argOcc S)).sum

/-- A schema with the alias-set name a on three arguments of the same
list. -/
def schemaC7x : FunctionSchema :=
  ⟨"op3", "", [argW "u" "a", argW "v" "a", argW "z" "a"], [retT]⟩

/-- A schema with the alias-set name a duplicated across exactly two
arguments of the same list. -/
def schemaC7 : FunctionSchema :=
  ⟨"op4", "", [argW "u" "a", argW "v" "a"], [retT]⟩

/-! ## Basic lemmas about the set and map helpers -/

theorem boolExt {a b : Bool} (h : a = true ↔ b = true) : a = b := by
  cases a <;> cases b <;> simp_all

theorem insElem_mem {α : Type} [DecidableEq α] {l : List α} {x y : α} :
    y ∈ insElem l x ↔ y = x ∨ y ∈ l := by
  unfold insElem
  by_cases h : l.contains x
  · have hx : x ∈ l := by simpa using h
    rw [if_pos h]
    constructor
    · exact Or.inr
    · rintro (rfl | hy)
      · exact hx
      · exact hy
  · rw [if_neg h, List.mem_cons]

theorem insElem_mono {α : Type} [DecidableEq α] {l : List α} {x y : α} (h : y ∈ l) :
    y ∈ insElem l x :=
  insElem_mem.mpr (Or.inr h)

theorem updAt_length (m : List (List Nat)) (i : Nat) (f : List Nat → List Nat) :
    (updAt m i f).length = m.length := by
  induction m generalizing i with
  | nil => rfl
  | cons a t ih => cases i <;> simp [updAt, ih]

theorem updAt_oob {m : List (List Nat)} {i : Nat} (h : m.length ≤ i) (f : List Nat → List Nat) :
    updAt m i f = m := by
  induction m generalizing i with
  | nil => rfl
  | cons a t ih =>
    cases i with
    | zero => simp at h
    | succ k => simp only [updAt]; rw [ih (by simpa using h)]

theorem updAt_getD_self {m : List (List Nat)} {i : Nat} (h : i < m.length)
    (f : List Nat → List Nat) : (updAt m i f).getD i [] = f (m.getD i []) := by
  induction m generalizing i with
  | nil => simp at h
  | cons a t ih =>
    cases i with
    | zero => rfl
    | succ k =>
      simp only [updAt, List.getD_cons_succ]
      exact ih (by simpa using h)

theorem updAt_getD_ne {m : List (List Nat)} {i j : Nat} (h : i ≠ j) (f : List Nat → List Nat) :
    (updAt m i f).getD j [] = m.getD j [] := by
  induction m generalizing i j with
  | nil => rfl
  | cons a t ih =>
    cases i with
    | zero =>
      cases j with
      | zero => exact absurd rfl h
      | succ k => rfl
    | succ n =>
      cases j with
      | zero => rfl
      | succ k =>
        simp only [updAt, List.getD_cons_succ]
        exact ih (by omega)

theorem mem_updAt_ins_iff {m : List (List Nat)} {a x i j : Nat} :
    j ∈ (updAt m a (fun s => insElem s x)).getD i [] ↔
      (i = a ∧ a < m.length ∧ j = x) ∨ j ∈ m.getD i [] := by
  by_cases hia : i = a
  · subst hia
    by_cases hlen : i < m.length
    · rw [updAt_getD_self hlen, insElem_mem]
      constructor
      · rintro (rfl | hy)
        · exact Or.inl ⟨rfl, hlen, rfl⟩
        · exact Or.inr hy
      · rintro (⟨-, -, rfl⟩ | hy)
        · exact Or.inl rfl
        · exact Or.inr hy
    · rw [updAt_oob (le_of_not_lt hlen)]
      constructor
      · exact Or.inr
      · rintro (⟨-, hl, -⟩ | hy)
        · exact absurd hl hlen
        · exact hy
  · rw [updAt_getD_ne (fun h => hia h.symm)]
    constructor
    · exact Or.inr
    · rintro (⟨rfl, -, -⟩ | hy)
      · exact absurd rfl hia
      · exact hy

theorem memMap_iff {m : List (List Nat)} {i j : Nat} :
    memMap m i j = true ↔ j ∈ m.getD i [] := by
  simp [memMap]

theorem getD_replicate_nil (n i : Nat) :
    (List.replicate n ([] : List Nat)).getD i [] = [] := by
  induction n generalizing i with
  | zero => cases i <;> rfl
  | succ k ih =>
    cases i with
    | zero => rfl
    | succ j =>
      simp only [List.replicate, List.getD_cons_succ]
      exact ih j

theorem getD_len_le {m : List (List Nat)} {i : Nat} (h : m.length ≤ i) : m.getD i [] = [] := by
  induction m generalizing i with
  | nil => rfl
  | cons a t ih =>
    cases i with
    | zero => simp at h
    | succ k =>
      simp only [List.getD_cons_succ]
      exact ih (by simpa using h)

theorem mem_upperPairs {n a b : Nat} : (a, b) ∈ upperPairs n ↔ a ≤ b ∧ b < n := by
  simp only [upperPairs, List.mem_flatMap, List.mem_map, List.mem_filter, List.mem_range]
  constructor
  · rintro ⟨i, hi, j, ⟨hj, hij⟩, heq⟩
    cases heq
    exact ⟨by simpa using hij, hj⟩
  · rintro ⟨hab, hb⟩
    exact ⟨a, by omega, b, ⟨hb, by simpa using hab⟩, rfl⟩

theorem mem_squarePairs {n m a b : Nat} : (a, b) ∈ squarePairs n m ↔ a < n ∧ b < m := by
  simp only [squarePairs, List.mem_flatMap, List.mem_map, List.mem_range]
  constructor
  · rintro ⟨i, hi, j, hj, heq⟩
    cases heq
    exact ⟨hi, hj⟩
  · rintro ⟨ha, hb⟩
    exact ⟨a, ha, b, hb, rfl⟩

/-! ## Lemmas about the first generation loop -/

theorem step1F_fst_cases (schema : FunctionSchema) (vm : VMap)
    (mw : List (List Nat) × List SchemaArgument) (p : Nat × Nat) :
    (step1F schema vm mw p).1 = mw.1 ∨
    (p.1 = p.2 ∧ (step1F schema vm mw p).1 = updAt mw.1 p.1 (fun s => insElem s p.1)) ∨
    (p.1 ≠ p.2 ∧ (step1F schema vm mw p).1 =
      updAt (updAt mw.1 p.1 (fun s => insElem s p.2)) p.2 (fun s => insElem s p.1)) := by
  simp only [step1F]
  by_cases h : p.1 = p.2
  · rw [if_pos h]
    exact Or.inr (Or.inl ⟨h, rfl⟩)
  · rw [if_neg h]
    rcases hvi : VMap.lookupVal vm (argName schema p.1) with _ | vi
    · exact Or.inl rfl
    · rcases hvj : VMap.lookupVal vm (argName schema p.2) with _ | vj
      · exact Or.inl rfl
      · dsimp only
        by_cases hal : vi.isAliasOf vj = true
        · rw [if_pos hal]
          exact Or.inr (Or.inr ⟨h, rfl⟩)
        · rw [if_neg hal]
          exact Or.inl rfl

theorem step1F_snd_cases (schema : FunctionSchema) (vm : VMap)
    (mw : List (List Nat) × List SchemaArgument) (p : Nat × Nat) :
    (step1F schema vm mw p).2 = mw.2 ∨ ∃ x, (step1F schema vm mw p).2 = insElem mw.2 x := by
  simp only [step1F]
  by_cases h : p.1 = p.2
  · rw [if_pos h]
    exact Or.inl rfl
  · rw [if_neg h]
    rcases VMap.lookupVal vm (argName schema p.1) with _ | vi
    · exact Or.inl rfl
    · rcases VMap.lookupVal vm (argName schema p.2) with _ | vj
      · exact Or.inl rfl
      · dsimp only
        by_cases hal : vi.isAliasOf vj = true
        · rw [if_pos hal]
          by_cases hw : (mw.2.contains ⟨.input, p.1⟩ : Bool) = true
          · rw [if_pos hw]
            exact Or.inr ⟨_, rfl⟩
          · rw [if_neg hw]
            by_cases hw2 : (mw.2.contains ⟨.input, p.2⟩ : Bool) = true
            · rw [if_pos hw2]
              exact Or.inr ⟨_, rfl⟩
            · rw [if_neg hw2]
              exact Or.inl rfl
        · rw [if_neg hal]
          exact Or.inl rfl

theorem step1F_fst_length (schema : FunctionSchema) (vm : VMap)
    (mw : List (List Nat) × List SchemaArgument) (p : Nat × Nat) :
    (step1F schema vm mw p).1.length = mw.1.length := by
  rcases step1F_fst_cases schema vm mw p with h | ⟨-, h⟩ | ⟨-, h⟩ <;>
    rw [h] <;> simp [updAt_length]

theorem step1F_fst_mono (schema : FunctionSchema) (vm : VMap)
    {mw : List (List Nat) × List SchemaArgument} {p : Nat × Nat} {i j : Nat}
    (h : j ∈ mw.1.getD i []) : j ∈ (step1F schema vm mw p).1.getD i [] := by
  rcases step1F_fst_cases schema vm mw p with he | ⟨-, he⟩ | ⟨-, he⟩ <;> rw [he]
  · exact h
  · exact mem_updAt_ins_iff.mpr (Or.inr h)
  · rw [mem_updAt_ins_iff]
    exact Or.inr (mem_updAt_ins_iff.mpr (Or.inr h))

theorem step1F_snd_mono (schema : FunctionSchema) (vm : VMap)
    {mw : List (List Nat) × List SchemaArgument} {p : Nat × Nat} {x : SchemaArgument}
    (h : x ∈ mw.2) : x ∈ (step1F schema vm mw p).2 := by
  rcases step1F_snd_cases schema vm mw p with he | ⟨y, he⟩ <;> rw [he]
  · exact h
  · exact insElem_mono h

theorem step1_fst_length (schema : FunctionSchema) (vm : VMap) (ps : List (Nat × Nat))
    (mw : List (List Nat) × List SchemaArgument) :
    (step1 schema vm mw ps).1.length = mw.1.length := by
  induction ps generalizing mw with
  | nil => rfl
  | cons p ps ih =>
    show (step1 schema vm (step1F schema vm mw p) ps).1.length = mw.1.length
    rw [ih, step1F_fst_length]

theorem step1_fst_mono (schema : FunctionSchema) (vm : VMap) (ps : List (Nat × Nat))
    {mw : List (List Nat) × List SchemaArgument} {i j : Nat}
    (h : j ∈ mw.1.getD i []) : j ∈ (step1 schema vm mw ps).1.getD i [] := by
  induction ps generalizing mw with
  | nil => exact h
  | cons p ps ih =>
    exact ih (step1F_fst_mono schema vm h)

theorem step1_snd_mono (schema : FunctionSchema) (vm : VMap) (ps : List (Nat × Nat))
    {mw : List (List Nat) × List SchemaArgument} {x : SchemaArgument}
    (h : x ∈ mw.2) : x ∈ (step1 schema vm mw ps).2 := by
  induction ps generalizing mw with
  | nil => exact h
  | cons p ps ih =>
    exact ih (step1F_snd_mono schema vm h)

theorem step1F_diag (schema : FunctionSchema) (vm : VMap)
    (mw : List (List Nat) × List SchemaArgument) {a : Nat} (ha : a < mw.1.length) :
    a ∈ (step1F schema vm mw (a, a)).1.getD a [] := by
  simp only [step1F, eq_self_iff_true, if_true]
  rw [updAt_getD_self ha]
  exact insElem_mem.mpr (Or.inl rfl)

theorem step1_diag_mem (schema : FunctionSchema) (vm : VMap)
    {ps : List (Nat × Nat)} {mw : List (List Nat) × List SchemaArgument} {a : Nat}
    (hmem : (a, a) ∈ ps) (ha : a < mw.1.length) :
    a ∈ (step1 schema vm mw ps).1.getD a [] := by
  induction ps generalizing mw with
  | nil => simp at hmem
  | cons p ps ih =>
    rcases List.mem_cons.mp hmem with heq | htail
    · cases heq
      exact step1_fst_mono schema vm ps (step1F_diag schema vm mw ha)
    · exact ih htail (by rw [step1F_fst_length]; exact ha)

theorem step1F_sym (schema : FunctionSchema) (vm : VMap)
    {mw : List (List Nat) × List SchemaArgument} {p : Nat × Nat}
    (hp1 : p.1 < mw.1.length) (hp2 : p.2 < mw.1.length)
    (hs : ∀ i j, j ∈ mw.1.getD i [] ↔ i ∈ mw.1.getD j []) :
    ∀ i j, j ∈ (step1F schema vm mw p).1.getD i [] ↔ i ∈ (step1F schema vm mw p).1.getD j [] := by
  intro i j
  rcases step1F_fst_cases schema vm mw p with he | ⟨hd, he⟩ | ⟨hd, he⟩ <;> rw [he]
  · exact hs i j
  · rw [mem_updAt_ins_iff, mem_updAt_ins_iff]
    constructor
    · rintro (⟨rfl, hl, rfl⟩ | hm)
      · exact Or.inl ⟨rfl, hl, rfl⟩
      · exact Or.inr ((hs i j).mp hm)
    · rintro (⟨rfl, hl, rfl⟩ | hm)
      · exact Or.inl ⟨rfl, hl, rfl⟩
      · exact Or.inr ((hs i j).mpr hm)
  · have hlen : (updAt mw.1 p.1 fun s => insElem s p.2).length = mw.1.length := by
      simp [updAt_length]
    rw [mem_updAt_ins_iff, mem_updAt_ins_iff, mem_updAt_ins_iff, mem_updAt_ins_iff, hlen]
    constructor
    · rintro (⟨rfl, hl, rfl⟩ | ⟨rfl, hl, rfl⟩ | hm)
      · exact Or.inr (Or.inl ⟨rfl, hp1, rfl⟩)
      · exact Or.inl ⟨rfl, hp2, rfl⟩
      · exact Or.inr (Or.inr ((hs i j).mp hm))
    · rintro (⟨rfl, hl, rfl⟩ | ⟨rfl, hl, rfl⟩ | hm)
      · exact Or.inr (Or.inl ⟨rfl, hp1, rfl⟩)
      · exact Or.inl ⟨rfl, hp2, rfl⟩
      · exact Or.inr (Or.inr ((hs i j).mpr hm))

theorem step1_sym (schema : FunctionSchema) (vm : VMap)
    {ps : List (Nat × Nat)} {mw : List (List Nat) × List SchemaArgument}
    (hp : ∀ p ∈ ps, p.1 < mw.1.length ∧ p.2 < mw.1.length)
    (hs : ∀ i j, j ∈ mw.1.getD i [] ↔ i ∈ mw.1.getD j []) :
    ∀ i j, j ∈ (step1 schema vm mw ps).1.getD i [] ↔ i ∈ (step1 schema vm mw ps).1.getD j [] := by
  induction ps generalizing mw with
  | nil => exact hs
  | cons p ps ih =>
    have hhead := hp p (List.mem_cons_self p ps)
    refine ih ?_ (step1F_sym schema vm hhead.1 hhead.2 hs)
    intro q hq
    rw [step1F_fst_length]
    exact hp q (List.mem_cons_of_mem p hq)

theorem step1F_bound (schema : FunctionSchema) (vm : VMap)
    {mw : List (List Nat) × List SchemaArgument} {p : Nat × Nat}
    (hp1 : p.1 < mw.1.length) (hp2 : p.2 < mw.1.length)
    (hb : ∀ i j, j ∈ mw.1.getD i [] → j < mw.1.length) :
    ∀ i j, j ∈ (step1F schema vm mw p).1.getD i [] → j < mw.1.length := by
  intro i j hm
  rcases step1F_fst_cases schema vm mw p with he | ⟨-, he⟩ | ⟨-, he⟩ <;> rw [he] at hm
  · exact hb i j hm
  · rcases mem_updAt_ins_iff.mp hm with ⟨-, -, rfl⟩ | hm2
    · exact hp1
    · exact hb i j hm2
  · rcases mem_updAt_ins_iff.mp hm with ⟨-, -, rfl⟩ | hm2
    · exact hp1
    · rcases mem_updAt_ins_iff.mp hm2 with ⟨-, -, rfl⟩ | hm3
      · exact hp2
      · exact hb i j hm3

theorem step1_bound (schema : FunctionSchema) (vm : VMap)
    {ps : List (Nat × Nat)} {mw : List (List Nat) × List SchemaArgument}
    (hp : ∀ p ∈ ps, p.1 < mw.1.length ∧ p.2 < mw.1.length)
    (hb : ∀ i j, j ∈ mw.1.getD i [] → j < mw.1.length) :
    ∀ i j, j ∈ (step1 schema vm mw ps).1.getD i [] → j < mw.1.length := by
  induction ps generalizing mw with
  | nil => exact hb
  | cons p ps ih =>
    have hhead := hp p (List.mem_cons_self p ps)
    intro i j hm
    have hlen := step1F_fst_length schema vm mw p
    have := @ih (step1F schema vm mw p)
      (by intro q hq; rw [hlen]; exact hp q (List.mem_cons_of_mem p hq))
      (by intro a b hab; rw [hlen]; exact step1F_bound schema vm hhead.1 hhead.2 hb a b hab)
      i j hm
    rwa [hlen] at this

theorem step1F_pair (schema : FunctionSchema) (vm : VMap)
    (mw : List (List Nat) × List SchemaArgument) {a b : Nat} (hab : a ≠ b)
    {va vb : IValue} (hva : vm.lookupVal (argName schema a) = some va)
    (hvb : vm.lookupVal (argName schema b) = some vb)
    (hal : va.isAliasOf vb = true) (ha : a < mw.1.length) (hb : b < mw.1.length) :
    b ∈ (step1F schema vm mw (a, b)).1.getD a [] ∧
    a ∈ (step1F schema vm mw (a, b)).1.getD b [] := by
  simp only [step1F]
  rw [if_neg hab, hva, hvb]
  dsimp only
  rw [if_pos hal]
  constructor
  · exact mem_updAt_ins_iff.mpr
      (Or.inr (mem_updAt_ins_iff.mpr (Or.inl ⟨rfl, ha, rfl⟩)))
  · refine mem_updAt_ins_iff.mpr (Or.inl ⟨rfl, ?_, rfl⟩)
    rw [updAt_length]
    exact hb

theorem step1_pair_mem (schema : FunctionSchema) (vm : VMap)
    {ps : List (Nat × Nat)} {mw : List (List Nat) × List SchemaArgument} {a b : Nat}
    (hmem : (a, b) ∈ ps) (hab : a ≠ b)
    {va vb : IValue} (hva : vm.lookupVal (argName schema a) = some va)
    (hvb : vm.lookupVal (argName schema b) = some vb)
    (hal : va.isAliasOf vb = true) (ha : a < mw.1.length) (hb : b < mw.1.length) :
    b ∈ (step1 schema vm mw ps).1.getD a [] ∧ a ∈ (step1 schema vm mw ps).1.getD b [] := by
  induction ps generalizing mw with
  | nil => simp at hmem
  | cons p ps ih =>
    rcases List.mem_cons.mp hmem with heq | htail
    · cases heq
      have h2 := step1F_pair schema vm mw hab hva hvb hal ha hb
      exact ⟨step1_fst_mono schema vm ps h2.1, step1_fst_mono schema vm ps h2.2⟩
    · exact ih htail (by rw [step1F_fst_length]; exact ha)
        (by rw [step1F_fst_length]; exact hb)

/-! ## Lemmas about regeneration and binding states -/

theorem gen_input_alias_map (s : SchemaInfo) :
    s.generateAliasMaps.input_alias_map =
      (step1 s.schema s.value_map
        (List.replicate s.schema.arguments.length [], s.wildcard_set)
        (upperPairs s.schema.arguments.length)).1 := rfl

theorem gen_current (s : SchemaInfo) : s.generateAliasMaps.alias_maps_current = true := rfl

theorem gen_schema (s : SchemaInfo) : s.generateAliasMaps.schema = s.schema := rfl

theorem gen_value_map (s : SchemaInfo) : s.generateAliasMaps.value_map = s.value_map := rfl

theorem gen_imap_length (s : SchemaInfo) :
    s.generateAliasMaps.input_alias_map.length = s.schema.arguments.length := by
  rw [gen_input_alias_map, step1_fst_length]
  simp

theorem gen_imap_diag {s : SchemaInfo} {i : Nat} (h : i < s.schema.arguments.length) :
    i ∈ s.generateAliasMaps.input_alias_map.getD i [] := by
  rw [gen_input_alias_map]
  exact step1_diag_mem s.schema s.value_map
    (mem_upperPairs.mpr ⟨le_refl i, h⟩) (by simpa using h)

theorem gen_imap_sym (s : SchemaInfo) (i j : Nat) :
    j ∈ s.generateAliasMaps.input_alias_map.getD i [] ↔
    i ∈ s.generateAliasMaps.input_alias_map.getD j [] := by
  rw [gen_input_alias_map]
  refine step1_sym s.schema s.value_map ?_ ?_ i j
  · rintro ⟨a, b⟩ hp
    have := mem_upperPairs.mp hp
    constructor <;> simp <;> omega
  · intro a b
    simp [getD_replicate_nil]

theorem addArgumentValue_parts {s s' : SchemaInfo} {n : String} {v : IValue}
    (h : s.addArgumentValue n v = some s') :
    s'.schema = s.schema ∧ s'.value_map = s.value_map.insertVal n v ∧
    s'.alias_maps_current = false ∧ s'.wildcard_set = s.wildcard_set := by
  unfold SchemaInfo.addArgumentValue at h
  rcases heq : s.schema.argumentIndexWithName n with _ | idx <;> rw [heq] at h
  · exact absurd h (by simp)
  · injection h with h2
    rw [← h2]
    exact ⟨rfl, rfl, rfl, rfl⟩

theorem applyBindings_schema (bs : List (String × IValue)) :
    ∀ s : SchemaInfo, (applyBindings s bs).schema = s.schema := by
  induction bs with
  | nil => intro s; rfl
  | cons p bs ih =>
    intro s
    show (applyBindings (match s.addArgumentValue p.1 p.2 with
      | some st1 => st1
      | none => s) bs).schema = s.schema
    rcases h : s.addArgumentValue p.1 p.2 with _ | st1
    · exact ih s
    · rw [ih st1, (addArgumentValue_parts h).1]

theorem applyBindings_current (bs : List (String × IValue)) :
    ∀ s : SchemaInfo, s.alias_maps_current = false →
      (applyBindings s bs).alias_maps_current = false := by
  induction bs with
  | nil => intro s h; exact h
  | cons p bs ih =>
    intro s h
    show (applyBindings (match s.addArgumentValue p.1 p.2 with
      | some st1 => st1
      | none => s) bs).alias_maps_current = false
    rcases heq : s.addArgumentValue p.1 p.2 with _ | st1
    · exact ih s h
    · exact ih st1 (addArgumentValue_parts heq).2.2.1

theorem stateOf_schema (schema : FunctionSchema) (bs : List (String × IValue)) :
    (stateOf schema bs).schema = schema := by
  rw [stateOf, applyBindings_schema]
  rfl

theorem stateOf_current (schema : FunctionSchema) (bs : List (String × IValue)) :
    (stateOf schema bs).alias_maps_current = false :=
  applyBindings_current bs _ rfl

theorem refresh_of_stale {s : SchemaInfo} (h : s.alias_maps_current = false) :
    s.refresh = s.generateAliasMaps := by
  simp [SchemaInfo.refresh, h]

theorem refresh_of_fresh {s : SchemaInfo} (h : s.alias_maps_current = true) :
    s.refresh = s := by
  simp [SchemaInfo.refresh, h]

theorem refresh_idem (s : SchemaInfo) : s.refresh.refresh = s.refresh := by
  by_cases h : s.alias_maps_current = true
  · rw [refresh_of_fresh h]
    exact refresh_of_fresh h
  · have h2 : s.refresh = s.generateAliasMaps := refresh_of_stale (by simpa using h)
    rw [h2]
    exact refresh_of_fresh (gen_current s)

theorem mapType_some_ne_nil {t : SchemaType} {S : List SchemaType}
    (h : mapTypeToAliasTypeSet t = some S) : S ≠ [] := by
  induction t generalizing S with
  | tensor => simp [mapTypeToAliasTypeSet] at h; subst h; simp
  | boolT => simp [mapTypeToAliasTypeSet] at h
  | floatT => simp [mapTypeToAliasTypeSet] at h
  | intT => simp [mapTypeToAliasTypeSet] at h
  | optionalT t ih => exact ih h
  | listOf t ih => simp [mapTypeToAliasTypeSet] at h; subst h; simp

theorem canAlias_self {S : List SchemaType} (h : S ≠ []) :
    canAliasTypeSetsAlias (some S) (some S) = true := by
  cases S with
  | nil => exact absurd rfl h
  | cons x rest =>
    simp only [canAliasTypeSetsAlias, List.any_eq_true]
    exact ⟨x, List.mem_cons_self x rest, by simp⟩

/-! ## Theorems -/

/-- C1: for every schema in the fixed normalization-operator table,
binding the boolean flag argument (training, train or use_input_stats) to
false makes is_mutable on running_mean and running_var return false,
while leaving the flag unbound makes it return true. -/
theorem C1_training_flag_gates_running_stats :
    getTrainingOps.all checkTrainingOp = true := by decide

/-- C2: for op(Tensor(a!) x, Tensor y) -> Tensor(a!) with no values
bound, is_mutable on x is true, may_alias between output 0 and x is true,
and may_alias between output 0 and y is false. -/
theorem C2_example_schema_queries :
    mutResult (stateOf schemaC2 []) "x" = some true ∧
    ((stateOf schemaC2 []).may_alias ⟨.output, 0⟩ ⟨.input, 0⟩).1 = true ∧
    ((stateOf schemaC2 []).may_alias ⟨.output, 0⟩ ⟨.input, 1⟩).1 = false := by
  decide

/-- C3 counterexample: two states over the same schema whose current
binding maps agree on every argument name, one fresh and one that went
through an earlier binding state in which argument a was discovered
contained in argument b; a later may_alias query answers differently on
the two states, so the dynamically-discovered portion of the wildcard set
is not recomputed from scratch and queries carry residue from earlier
binding states. -/
theorem C3_counterexample :
    c3sA.schema = c3sB.schema ∧
    c3sA.value_map.lookupVal "a" = c3sB.value_map.lookupVal "a" ∧
    c3sA.value_map.lookupVal "b" = c3sB.value_map.lookupVal "b" ∧
    c3sA.value_map.lookupVal "c" = c3sB.value_map.lookupVal "c" ∧
    (c3sA.may_alias ⟨.input, 0⟩ ⟨.input, 2⟩).1 = true ∧
    (c3sB.may_alias ⟨.input, 0⟩ ⟨.input, 2⟩).1 = false :=
  ⟨rfl, rfl, rfl, rfl, rfl, rfl⟩

/-- C4 counterexample: on op2(Tensor x) -> Tensor the output reference
(output, 0) is valid, yet may_alias on it with itself returns false (its
output alias set is empty because it aliases no input), refuting
reflexivity for every valid reference. -/
theorem C4_counterexample :
    0 < schemaC4.returns.length ∧
    ((stateOf schemaC4 []).may_alias ⟨.output, 0⟩ ⟨.output, 0⟩).1 = false := by
  decide

/-- C7 counterexample: the alias-set name a appears in the after-sets of
three arguments of the same list of op3, so it is a duplicate name
appearing on two or more entries, yet the warning diagnostic is emitted
twice (once per repeated occurrence), not exactly once. -/
theorem C7_counterexample :
    2 ≤ (schemaC7x.arguments.filter fun a =>
          match a.alias_info with
          | some ai => ai.afterSets.contains "a"
          | none => false).length ∧
    countOcc "a" (SchemaInfo.init schemaC7x).warnings = 2 := by
  decide

/-- C10: after every alias-map regeneration the input alias map is
reflexive (every argument index in range is a member of its own alias
set, out-of-range rows are empty) and symmetric. -/
theorem C10_input_alias_map_reflexive_symmetric (s : SchemaInfo) (i j : Nat) :
    memMap s.generateAliasMaps.input_alias_map i i
      = decide (i < s.schema.arguments.length) ∧
    memMap s.generateAliasMaps.input_alias_map i j
      = memMap s.generateAliasMaps.input_alias_map j i := by
  constructor
  · apply boolExt
    rw [memMap_iff]
    constructor
    · intro hm
      by_contra hc
      have hge : s.schema.arguments.length ≤ i := by
        simp only [decide_eq_true_eq] at hc
        omega
      rw [getD_len_le (by rw [gen_imap_length]; exact hge)] at hm
      simp at hm
    · intro hd
      exact gen_imap_diag (by simpa using hd)
  · apply boolExt
    rw [memMap_iff, memMap_iff]
    exact gen_imap_sym s i j

/-- C4 amended: may_alias is reflexive on valid input references whose
type is aliasable; for such a reference, in any binding state, the query
answers true (for outputs aliasing no input, and for non-aliasable types,
it can answer false, as the counterexample shows). -/
theorem C4_self_alias_input (schema : FunctionSchema) (bs : List (String × IValue)) (i : Nat)
    (h1 : i < schema.arguments.length)
    (h2 : (mapTypeToAliasTypeSet ((schema.arguments.getD i default).type)).isSome = true) :
    ((stateOf schema bs).may_alias ⟨.input, i⟩ ⟨.input, i⟩).1 = true := by
  have hsch : (stateOf schema bs).schema = schema := stateOf_schema schema bs
  unfold SchemaInfo.may_alias
  by_cases hb : (stateOf schema bs).schema.may_alias ⟨.input, i⟩ ⟨.input, i⟩ = true
  · rw [if_pos hb]
  · rw [if_neg hb]
    dsimp only
    obtain ⟨S, hS⟩ := Option.isSome_iff_exists.mp h2
    have htypes : canAliasTypeSetsAlias
        (mapTypeToAliasTypeSet
          (((stateOf schema bs).schema.getCorrectList SchemaArgType.input).getD i default).type)
        (mapTypeToAliasTypeSet
          (((stateOf schema bs).schema.getCorrectList SchemaArgType.input).getD i default).type)
        = true := by
      rw [hsch]
      show canAliasTypeSetsAlias (mapTypeToAliasTypeSet ((schema.arguments.getD i default).type))
        (mapTypeToAliasTypeSet ((schema.arguments.getD i default).type)) = true
      rw [hS]
      exact canAlias_self (mapType_some_ne_nil hS)
    rw [if_pos htypes]
    by_cases hw : ((stateOf schema bs).refresh.wildcard_set.contains ⟨.input, i⟩ &&
        (stateOf schema bs).refresh.wildcard_set.contains ⟨.input, i⟩) = true
    · rw [if_pos hw]
    · rw [if_neg hw]
      dsimp only
      rw [refresh_of_stale (stateOf_current schema bs)]
      rw [memMap_iff]
      exact gen_imap_diag (by rw [hsch]; exact h1)

/-- Witness for the amended C4 at a concrete schema and reference. -/
theorem C4_self_alias_input_witness :
    0 < schemaC4.arguments.length ∧
    (mapTypeToAliasTypeSet ((schemaC4.arguments.getD 0 default).type)).isSome = true ∧
    ((stateOf schemaC4 []).may_alias ⟨.input, 0⟩ ⟨.input, 0⟩).1 = true :=
  ⟨by decide, by decide, C4_self_alias_input schemaC4 [] 0 (by decide) (by decide)⟩

theorem contains_iff_mem {α : Type} [DecidableEq α] {l : List α} {x : α} :
    l.contains x = true ↔ x ∈ l := by
  simp

theorem anyContains_symm {α : Type} [DecidableEq α] (l r : List α) :
    (l.any fun t => r.contains t) = (r.any fun t => l.contains t) := by
  apply boolExt
  simp only [List.any_eq_true, contains_iff_mem]
  constructor <;> rintro ⟨t, h1, h2⟩ <;> exact ⟨t, h2, h1⟩

theorem canAlias_symm (x y : Option (List SchemaType)) :
    canAliasTypeSetsAlias x y = canAliasTypeSetsAlias y x := by
  cases x with
  | none => cases y <;> rfl
  | some l =>
    cases y with
    | none => rfl
    | some r => exact anyContains_symm l r

theorem schema_may_alias_symm (s : FunctionSchema) (a b : SchemaArgument) :
    s.may_alias a b = s.may_alias b a := by
  unfold FunctionSchema.may_alias
  dsimp only
  by_cases hc : canAliasTypeSetsAlias
      (mapTypeToAliasTypeSet ((s.getCorrectList a.type).getD a.index default).type)
      (mapTypeToAliasTypeSet ((s.getCorrectList b.type).getD b.index default).type) = true
  · have hc2 : canAliasTypeSetsAlias
        (mapTypeToAliasTypeSet ((s.getCorrectList b.type).getD b.index default).type)
        (mapTypeToAliasTypeSet ((s.getCorrectList a.type).getD a.index default).type) = true := by
      rw [canAlias_symm]
      exact hc
    rw [if_pos hc, if_pos hc2]
    rcases ((s.getCorrectList a.type).getD a.index default).alias_info with _ | la <;>
      rcases ((s.getCorrectList b.type).getD b.index default).alias_info with _ | rb <;>
      dsimp only <;>
      first
        | rfl
        | exact anyContains_symm _ _
  · have hc2 : ¬ canAliasTypeSetsAlias
        (mapTypeToAliasTypeSet ((s.getCorrectList b.type).getD b.index default).type)
        (mapTypeToAliasTypeSet ((s.getCorrectList a.type).getD a.index default).type) = true := by
      rw [canAlias_symm]
      exact hc
    rw [if_neg hc, if_neg hc2]

theorem may_alias_symm_core {s : SchemaInfo}
    (hsym : ∀ i j, j ∈ s.refresh.input_alias_map.getD i [] ↔
      i ∈ s.refresh.input_alias_map.getD j [])
    (a b : SchemaArgument) :
    (s.may_alias a b).1 = (s.may_alias b a).1 := by
  unfold SchemaInfo.may_alias
  by_cases h1 : s.schema.may_alias a b = true
  · have h1b : s.schema.may_alias b a = true := by
      rw [schema_may_alias_symm]
      exact h1
    rw [if_pos h1, if_pos h1b]
  · have h1b : ¬ s.schema.may_alias b a = true := by
      rw [schema_may_alias_symm]
      exact h1
    rw [if_neg h1, if_neg h1b]
    dsimp only
    by_cases h2 : canAliasTypeSetsAlias
        (mapTypeToAliasTypeSet ((s.schema.getCorrectList a.type).getD a.index default).type)
        (mapTypeToAliasTypeSet ((s.schema.getCorrectList b.type).getD b.index default).type) = true
    · have h2b : canAliasTypeSetsAlias
          (mapTypeToAliasTypeSet ((s.schema.getCorrectList b.type).getD b.index default).type)
          (mapTypeToAliasTypeSet ((s.schema.getCorrectList a.type).getD a.index default).type)
          = true := by
        rw [canAlias_symm]
        exact h2
      rw [if_pos h2, if_pos h2b]
      by_cases h3 : (s.refresh.wildcard_set.contains a && s.refresh.wildcard_set.contains b) = true
      · have h3b : (s.refresh.wildcard_set.contains b && s.refresh.wildcard_set.contains a)
            = true := by
          rw [Bool.and_comm]
          exact h3
        rw [if_pos h3, if_pos h3b]
      · have h3b : ¬ (s.refresh.wildcard_set.contains b && s.refresh.wildcard_set.contains a)
            = true := by
          rw [Bool.and_comm]
          exact h3
        rw [if_neg h3, if_neg h3b]
        obtain ⟨ta, ia⟩ := a
        obtain ⟨tb, ib⟩ := b
        cases ta <;> cases tb <;> dsimp only <;>
          first
            | rfl
            | (apply boolExt
               rw [memMap_iff, memMap_iff]
               exact hsym ia ib)
            | exact anyContains_symm _ _
    · have h2b : ¬ canAliasTypeSetsAlias
          (mapTypeToAliasTypeSet ((s.schema.getCorrectList b.type).getD b.index default).type)
          (mapTypeToAliasTypeSet ((s.schema.getCorrectList a.type).getD a.index default).type)
          = true := by
        rw [canAlias_symm]
        exact h2
      rw [if_neg h2, if_neg h2b]

/-- C5: may_alias is symmetric in its two slot references, in every
binding state (both before any regeneration and in the state produced by
a regeneration). -/
theorem C5_may_alias_symmetric (schema : FunctionSchema) (bs : List (String × IValue))
    (a b : SchemaArgument) :
    ((stateOf schema bs).may_alias a b).1 = ((stateOf schema bs).may_alias b a).1 ∧
    (((stateOf schema bs).refresh).may_alias a b).1 =
      (((stateOf schema bs).refresh).may_alias b a).1 := by
  have hsym : ∀ i j, j ∈ (stateOf schema bs).refresh.input_alias_map.getD i [] ↔
      i ∈ (stateOf schema bs).refresh.input_alias_map.getD j [] := by
    intro i j
    rw [refresh_of_stale (stateOf_current schema bs)]
    exact gen_imap_sym _ i j
  constructor
  · exact may_alias_symm_core hsym a b
  · refine may_alias_symm_core ?_ a b
    intro i j
    rw [refresh_idem]
    exact hsym i j

theorem findIndexNamed_spec {nm : String} {args : List Argument} {i : Nat}
    (h : findIndexNamed nm args = some i) :
    i < args.length ∧ (args.getD i default).name = nm := by
  induction args generalizing i with
  | nil => simp [findIndexNamed] at h
  | cons a rest ih =>
    unfold findIndexNamed at h
    by_cases heq : a.name = nm
    · rw [if_pos heq] at h
      injection h with h2
      subst h2
      exact ⟨by simp, heq⟩
    · rw [if_neg heq] at h
      rcases hr : findIndexNamed nm rest with _ | k <;> rw [hr] at h
      · simp at h
      · have h2 : k + 1 = i := by simpa using h
        subst h2
        obtain ⟨hk1, hk2⟩ := ih hr
        refine ⟨by simpa using hk1, ?_⟩
        simpa using hk2

theorem isAliasOf_symm {v1 v2 : IValue} (h : v1.isAliasOf v2 = true) :
    v2.isAliasOf v1 = true := by
  cases v1 <;> cases v2 <;> simp [IValue.isAliasOf] at h ⊢
  omega

/-- C6: binding two distinct tensor-typed input arguments to
identity-aliased values makes the next may_alias query on the pair return
true, from any starting state, including one whose alias maps were
computed before the binding (the binding marks the maps stale and the
query regenerates them). -/
theorem C6_bind_aliased_values_then_query
    (s : SchemaInfo) (ni nj : String) (v1 v2 : IValue) (i j : Nat) (s1 s2 : SchemaInfo)
    (hi : s.schema.argumentIndexWithName ni = some i)
    (hj : s.schema.argumentIndexWithName nj = some j)
    (hij : i ≠ j)
    (hti : (s.schema.arguments.getD i default).type = .tensor)
    (htj : (s.schema.arguments.getD j default).type = .tensor)
    (hal : v1.isAliasOf v2 = true)
    (h1 : s.addArgumentValue ni v1 = some s1)
    (h2 : s1.addArgumentValue nj v2 = some s2) :
    (s2.may_alias ⟨.input, i⟩ ⟨.input, j⟩).1 = true := by
  obtain ⟨hsch1, hvm1, -, -⟩ := addArgumentValue_parts h1
  obtain ⟨hsch2, hvm2, hcur2, -⟩ := addArgumentValue_parts h2
  have hsch : s2.schema = s.schema := by rw [hsch2, hsch1]
  obtain ⟨hilt, hiname⟩ := findIndexNamed_spec hi
  obtain ⟨hjlt, hjname⟩ := findIndexNamed_spec hj
  have hninj : ni ≠ nj := by
    intro he
    apply hij
    rw [he] at hi
    rw [hi] at hj
    injection hj
  have hvm : s2.value_map = (nj, v2) :: (ni, v1) :: s.value_map := by
    rw [hvm2, hvm1]
    rfl
  have hlooki : s2.value_map.lookupVal (argName s2.schema i) = some v1 := by
    have hn : argName s2.schema i = ni := by
      rw [argName, hsch]
      exact hiname
    rw [hn, hvm]
    unfold VMap.lookupVal
    rw [if_neg (fun he => hninj he.symm)]
    unfold VMap.lookupVal
    rw [if_pos rfl]
  have hlookj : s2.value_map.lookupVal (argName s2.schema j) = some v2 := by
    have hn : argName s2.schema j = nj := by
      rw [argName, hsch]
      exact hjname
    rw [hn, hvm]
    unfold VMap.lookupVal
    rw [if_pos rfl]
  unfold SchemaInfo.may_alias
  by_cases hb : s2.schema.may_alias ⟨.input, i⟩ ⟨.input, j⟩ = true
  · rw [if_pos hb]
  · rw [if_neg hb]
    dsimp only
    have e1 : ((s2.schema.getCorrectList SchemaArgType.input).getD i default).type
        = SchemaType.tensor := by
      rw [hsch]
      exact hti
    have e2 : ((s2.schema.getCorrectList SchemaArgType.input).getD j default).type
        = SchemaType.tensor := by
      rw [hsch]
      exact htj
    have htypes : canAliasTypeSetsAlias
        (mapTypeToAliasTypeSet ((s2.schema.getCorrectList SchemaArgType.input).getD i default).type)
        (mapTypeToAliasTypeSet ((s2.schema.getCorrectList SchemaArgType.input).getD j default).type)
        = true := by
      rw [e1, e2]
      rfl
    rw [if_pos htypes]
    by_cases hw : (s2.refresh.wildcard_set.contains ⟨.input, i⟩ &&
        s2.refresh.wildcard_set.contains ⟨.input, j⟩) = true
    · rw [if_pos hw]
    · rw [if_neg hw]
      dsimp only
      rw [refresh_of_stale hcur2, memMap_iff, gen_input_alias_map]
      have hilt2 : i < s2.schema.arguments.length := by
        rw [hsch]
        exact hilt
      have hjlt2 : j < s2.schema.arguments.length := by
        rw [hsch]
        exact hjlt
      have hmwlen : (List.replicate s2.schema.arguments.length ([] : List Nat),
          s2.wildcard_set).1.length = s2.schema.arguments.length := by
        simp
      rcases Nat.lt_or_ge i j with hlt | hge
      · refine (step1_pair_mem s2.schema s2.value_map
          (mem_upperPairs.mpr ⟨Nat.le_of_lt hlt, hjlt2⟩) hij hlooki hlookj hal ?_ ?_).1
        · rw [hmwlen]
          exact hilt2
        · rw [hmwlen]
          exact hjlt2
      · have hltj : j < i := Nat.lt_of_le_of_ne hge (fun he => hij he.symm)
        refine (step1_pair_mem s2.schema s2.value_map
          (mem_upperPairs.mpr ⟨Nat.le_of_lt hltj, hilt2⟩) (fun he => hij he.symm)
          hlookj hlooki (isAliasOf_symm hal) ?_ ?_).2
        · rw [hmwlen]
          exact hjlt2
        · rw [hmwlen]
          exact hilt2

/-- Witness for C6 at a concrete two-tensor schema, starting from a state
whose alias maps were already generated. -/
theorem C6_bind_aliased_values_then_query_witness :
    c6s0.addArgumentValue "p" (.tensor 7) = some c6s1 ∧
    c6s1.addArgumentValue "q" (.tensor 7) = some c6s2 ∧
    (c6s2.may_alias ⟨.input, 0⟩ ⟨.input, 1⟩).1 = true :=
  ⟨rfl, rfl,
    C6_bind_aliased_values_then_query c6s0 "p" "q" (.tensor 7) (.tensor 7) 0 1 c6s1 c6s2
      rfl rfl (by decide) rfl rfl rfl rfl rfl⟩

theorem step2F_cases (schema : FunctionSchema) (vm : VMap) (imap : List (List Nat))
    (w : List SchemaArgument) (p : Nat × Nat) :
    step2F schema vm imap w p = w ∨ ∃ x, step2F schema vm imap w p = insElem w x := by
  unfold step2F
  by_cases h : memMap imap p.1 p.2 = true
  · rw [if_pos h]
    exact Or.inl rfl
  · rw [if_neg h]
    rcases vm.lookupVal (argName schema p.1) with _ | vi
    · exact Or.inl rfl
    · rcases vm.lookupVal (argName schema p.2) with _ | vj
      · exact Or.inl rfl
      · dsimp only
        by_cases ha : aliasedMem vi.getSubValues vj = true
        · rw [if_pos ha]
          exact Or.inr ⟨_, rfl⟩
        · rw [if_neg ha]
          exact Or.inl rfl

theorem step2_mono (schema : FunctionSchema) (vm : VMap) (imap : List (List Nat))
    (ps : List (Nat × Nat)) {w : List SchemaArgument} {x : SchemaArgument}
    (h : x ∈ w) : x ∈ step2 schema vm imap w ps := by
  induction ps generalizing w with
  | nil => exact h
  | cons p ps ih =>
    refine ih ?_
    rcases step2F_cases schema vm imap w p with he | ⟨y, he⟩ <;> rw [he]
    · exact h
    · exact insElem_mono h

theorem step3F_snd_cases (schema : FunctionSchema) (imap : List (List Nat))
    (ow : List (List Nat) × List SchemaArgument) (p : Nat × Nat) :
    (step3F schema imap ow p).2 = ow.2 ∨
    ∃ x, (step3F schema imap ow p).2 = insElem ow.2 x := by
  unfold step3F
  by_cases h : schema.may_alias ⟨.input, p.1⟩ ⟨.output, p.2⟩ = true
  · rw [if_pos h]
    by_cases hw : (ow.2.contains ⟨.input, p.1⟩ : Bool) = true
    · rw [if_pos hw]
      exact Or.inr ⟨_, rfl⟩
    · rw [if_neg hw]
      exact Or.inl rfl
  · rw [if_neg h]
    exact Or.inl rfl

theorem step3_snd_mono (schema : FunctionSchema) (imap : List (List Nat))
    (ps : List (Nat × Nat)) {ow : List (List Nat) × List SchemaArgument} {x : SchemaArgument}
    (h : x ∈ ow.2) : x ∈ (step3 schema imap ow ps).2 := by
  induction ps generalizing ow with
  | nil => exact h
  | cons p ps ih =>
    refine ih ?_
    rcases step3F_snd_cases schema imap ow p with he | ⟨y, he⟩ <;> rw [he]
    · exact h
    · exact insElem_mono h

theorem gen_imap_triple (s : SchemaInfo) :
    s.generateAliasMaps.input_alias_map =
      (genTriple s.schema s.value_map s.wildcard_set).1 := rfl

theorem gen_omap_triple (s : SchemaInfo) :
    s.generateAliasMaps.output_alias_map =
      (genTriple s.schema s.value_map s.wildcard_set).2.1 := rfl

theorem gen_wset_triple (s : SchemaInfo) :
    s.generateAliasMaps.wildcard_set =
      (genTriple s.schema s.value_map s.wildcard_set).2.2 := rfl

theorem genTriple_wset_mono (schema : FunctionSchema) (vm : VMap)
    {w : List SchemaArgument} {x : SchemaArgument} (h : x ∈ w) :
    x ∈ (genTriple schema vm w).2.2 := by
  unfold genTriple
  dsimp only
  exact step3_snd_mono schema _ _ (step2_mono schema vm _ _ (step1_snd_mono schema vm _ h))

/-- C3 amended: on every regeneration the two alias maps are recomputed
from scratch as a function of only the schema, the current binding map
and the wildcard set at regeneration time (no dependence on the previous
maps); the wildcard set, however, is only ever extended, so its
dynamically-discovered entries persist across binding states and later
queries can observe residue from earlier binding states, as the
counterexample shows. -/
theorem C3_alias_maps_from_scratch_wildcard_monotone (s s2 : SchemaInfo) (x : SchemaArgument)
    (h1 : s.schema = s2.schema) (h2 : s.value_map = s2.value_map)
    (h3 : s.wildcard_set = s2.wildcard_set)
    (hx : s.wildcard_set.contains x = true) :
    s.generateAliasMaps.input_alias_map = s2.generateAliasMaps.input_alias_map ∧
    s.generateAliasMaps.output_alias_map = s2.generateAliasMaps.output_alias_map ∧
    s.generateAliasMaps.wildcard_set = s2.generateAliasMaps.wildcard_set ∧
    s.generateAliasMaps.wildcard_set.contains x = true := by
  refine ⟨?_, ?_, ?_, ?_⟩
  · rw [gen_imap_triple, gen_imap_triple, h1, h2, h3]
  · rw [gen_omap_triple, gen_omap_triple, h1, h2, h3]
  · rw [gen_wset_triple, gen_wset_triple, h1, h2, h3]
  · rw [gen_wset_triple, contains_iff_mem]
    exact genTriple_wset_mono s.schema s.value_map (contains_iff_mem.mp hx)

/-- Witness for the amended C3 at a concrete state with a nonempty
wildcard set. -/
theorem C3_alias_maps_from_scratch_wildcard_monotone_witness :
    (SchemaInfo.init schema3).wildcard_set.contains ⟨.input, 2⟩ = true ∧
    (SchemaInfo.init schema3).generateAliasMaps.wildcard_set.contains ⟨.input, 2⟩ = true :=
  ⟨by decide,
    (C3_alias_maps_from_scratch_wildcard_monotone (SchemaInfo.init schema3)
      (SchemaInfo.init schema3) ⟨.input, 2⟩ rfl rfl rfl (by decide)).2.2.2⟩

/-- C8: is_nondeterministic returns false when the schema is the dropout
schema and train is bound to false; when train is bound true, unbound, or
the schema differs, it returns exactly the operator-tag registry answer
for the schema name and overload name (true iff found and tagged). -/
theorem C8_is_nondeterministic_dropout (reg : TagRegistry) (s : SchemaInfo) :
    (s.schema = dropout_schema →
      s.value_map.lookupVal "train" = some (.boolV false) →
      SchemaInfo.is_nondeterministic reg s = false) ∧
    (s.schema ≠ dropout_schema ∨ s.value_map.lookupVal "train" = none ∨
        s.value_map.lookupVal "train" = some (.boolV true) →
      SchemaInfo.is_nondeterministic reg s =
        match reg s.schema.name s.schema.overload_name with
        | some tagged => tagged
        | none => false) := by
  constructor
  · intro h1 h2
    unfold SchemaInfo.is_nondeterministic
    have hc : (s.schema == dropout_schema &&
        (match s.value_map.lookupVal "train" with
         | some v => !v.toBool
         | none => false)) = true := by
      rw [h2, h1]
      simp [IValue.toBool]
    rw [if_pos hc]
  · intro h
    unfold SchemaInfo.is_nondeterministic
    have hc : ¬ ((s.schema == dropout_schema &&
        (match s.value_map.lookupVal "train" with
         | some v => !v.toBool
         | none => false)) = true) := by
      rcases h with h | h | h
      · intro hand
        rw [Bool.and_eq_true] at hand
        exact h (by simpa using hand.1)
      · rw [h]
        simp
      · rw [h]
        simp [IValue.toBool]
    rw [if_neg hc]

/-- Witness for C8 at the dropout schema with train bound false and a
registry that reports the operator as tagged non-deterministic. -/
theorem C8_is_nondeterministic_dropout_witness :
    (stateOf dropout_schema [("train", .boolV false)]).schema = dropout_schema ∧
    (stateOf dropout_schema [("train", .boolV false)]).value_map.lookupVal "train"
      = some (.boolV false) ∧
    SchemaInfo.is_nondeterministic (fun _ _ => some true)
      (stateOf dropout_schema [("train", .boolV false)]) = false :=
  ⟨rfl, rfl,
    (C8_is_nondeterministic_dropout (fun _ _ => some true)
      (stateOf dropout_schema [("train", .boolV false)])).1 rfl rfl⟩

/-- C9: the four contract checks: binding under a name, querying
mutability by name, querying mutability by slot reference, and binding a
positional list, succeed exactly on known names, in-range indices and
lists no longer than the argument list, and fail with an assertion
(modelled as none) otherwise. -/
theorem C9_contract_violations_fail_fast (s : SchemaInfo) (name : String) (v : IValue)
    (arg : SchemaArgument) (l : List (Option IValue)) :
    (s.addArgumentValue name v).isSome = (s.schema.argumentIndexWithName name).isSome ∧
    (s.is_mutable_name name).isSome = (s.schema.argumentIndexWithName name).isSome ∧
    (s.is_mutable arg).isSome
      = decide (arg.index < (s.schema.getCorrectList arg.type).length) ∧
    (s.addArgumentValues l).isSome = decide (l.length ≤ s.schema.arguments.length) := by
  have hmut : ∀ a : SchemaArgument, (s.is_mutable a).isSome
      = decide (a.index < (s.schema.getCorrectList a.type).length) := by
    intro a
    unfold SchemaInfo.is_mutable
    by_cases h : a.index < (s.schema.getCorrectList a.type).length
    · rw [if_pos h]
      simp [h]
    · rw [if_neg h]
      simp [h]
  refine ⟨?_, ?_, hmut arg, ?_⟩
  · unfold SchemaInfo.addArgumentValue
    rcases s.schema.argumentIndexWithName name with _ | idx <;> rfl
  · unfold SchemaInfo.is_mutable_name
    rcases h : s.schema.argumentIndexWithName name with _ | idx
    · rfl
    · rw [hmut ⟨.input, idx⟩]
      have hlt := (findIndexNamed_spec h).1
      simp only [Option.isSome_some]
      simpa using hlt
  · unfold SchemaInfo.addArgumentValues
    by_cases h : l.length ≤ s.schema.arguments.length
    · rw [if_pos h]
      simp [h]
    · rw [if_neg h]
      simp [h]

/-! ## Lemmas about the duplicate-name scan -/

theorem countOcc_nil (S : String) : countOcc S [] = 0 := rfl

theorem countOcc_cons (S t : String) (l : List String) :
    countOcc S (t :: l) = (if t = S then 1 else 0) + countOcc S l := by
  simp only [countOcc, List.filter_cons]
  by_cases h : t = S
  · simp [h, Nat.add_comm]
  · simp [h]

theorem countOcc_append (S : String) (l1 l2 : List String) :
    countOcc S (l1 ++ l2) = countOcc S l1 + countOcc S l2 := by
  simp [countOcc, List.filter_append]

theorem mem_iff_countOcc_pos {S : String} {l : List String} : S ∈ l ↔ 1 ≤ countOcc S l := by
  induction l with
  | nil => simp [countOcc_nil]
  | cons t rest ih =>
    rw [countOcc_cons]
    simp only [List.mem_cons]
    by_cases h : t = S
    · subst h
      simp
    · rw [if_neg h, Nat.zero_add, ← ih]
      constructor
      · rintro (rfl | hm)
        · exact absurd rfl h
        · exact hm
      · intro hm
        exact Or.inr hm

theorem contains_countOcc (S : String) (l : List String) :
    (l.contains S : Bool) = decide (1 ≤ countOcc S l) := by
  apply boolExt
  rw [contains_iff_mem]
  simp only [decide_eq_true_eq]
  exact mem_iff_countOcc_pos

theorem contains_cons_str (t S : String) (l : List String) :
    (((t :: l).contains S : Bool)) = ((t = S : Bool) || l.contains S) := by
  apply boolExt
  rw [contains_iff_mem]
  simp only [List.mem_cons, Bool.or_eq_true, decide_eq_true_eq]
  rw [← contains_iff_mem]
  constructor
  · rintro (rfl | h)
    · exact Or.inl rfl
    · exact Or.inr h
  · rintro (rfl | h)
    · exact Or.inl rfl
    · exact Or.inr h

theorem insElem_contains {α : Type} [DecidableEq α] (l : List α) (x y : α) :
    ((insElem l x).contains y : Bool) = ((y = x : Bool) || l.contains y) := by
  apply boolExt
  rw [contains_iff_mem, insElem_mem]
  simp [contains_iff_mem]

theorem scanSets_warnings (S : String) (sets : List String) :
    ∀ (sn dp wn : List String),
      countOcc S (scanSets sets ⟨sn, dp, wn⟩).warnings =
        countOcc S wn + (if sn.contains S = true then countOcc S sets else countOcc S sets - 1) := by
  induction sets with
  | nil =>
    intro sn dp wn
    unfold scanSets
    dsimp only
    rw [countOcc_nil]
    split <;> omega
  | cons t rest ih =>
    intro sn dp wn
    unfold scanSets
    dsimp only
    by_cases hm : sn.contains t = true
    · rw [if_pos hm, ih, countOcc_append, countOcc_cons, countOcc_cons, countOcc_nil]
      by_cases hts : t = S <;> by_cases hsn : S ∈ sn <;>
        simp [hts, hsn, eq_comm] <;>
        first
          | omega
          | (subst hts; exact absurd (contains_iff_mem.mpr hsn) hm)
          | (subst hts; exact absurd (contains_iff_mem.mp hm) hsn)
          | exact fun he => absurd he.symm hts
    · rw [if_neg hm, ih, countOcc_cons, contains_cons_str]
      by_cases hts : t = S <;> by_cases hsn : S ∈ sn <;>
        simp [hts, hsn, eq_comm] <;>
        first
          | omega
          | (subst hts; exact absurd (contains_iff_mem.mpr hsn) hm)
          | (subst hts; exact absurd (contains_iff_mem.mp hm) hsn)
          | exact fun he => absurd he.symm hts

theorem scanSets_seen (S : String) (sets : List String) :
    ∀ (sn dp wn : List String),
      (((scanSets sets ⟨sn, dp, wn⟩).seen.contains S : Bool)) =
        (sn.contains S || decide (1 ≤ countOcc S sets)) := by
  induction sets with
  | nil =>
    intro sn dp wn
    unfold scanSets
    dsimp only
    rw [countOcc_nil]
    simp
  | cons t rest ih =>
    intro sn dp wn
    unfold scanSets
    dsimp only
    by_cases hm : sn.contains t = true
    · rw [if_pos hm, ih, countOcc_cons]
      by_cases hts : t = S <;> by_cases hsn : S ∈ sn <;>
        simp [hts, hsn, eq_comm] <;>
        first
          | omega
          | (subst hts; exact absurd (contains_iff_mem.mpr hsn) hm)
          | (subst hts; exact absurd (contains_iff_mem.mp hm) hsn)
          | exact fun he => absurd he.symm hts
    · rw [if_neg hm, ih, contains_cons_str, countOcc_cons]
      by_cases hts : t = S <;> by_cases hsn : S ∈ sn <;>
        simp [hts, hsn, eq_comm] <;>
        first
          | omega
          | (subst hts; exact absurd (contains_iff_mem.mpr hsn) hm)
          | (subst hts; exact absurd (contains_iff_mem.mp hm) hsn)
          | exact fun he => absurd he.symm hts

theorem scanSets_duplicates (S : String) (sets : List String) :
    ∀ (sn dp wn : List String),
      (((scanSets sets ⟨sn, dp, wn⟩).duplicates.contains S : Bool)) =
        (dp.contains S ||
          (if sn.contains S = true then decide (1 ≤ countOcc S sets)
           else decide (2 ≤ countOcc S sets))) := by
  induction sets with
  | nil =>
    intro sn dp wn
    unfold scanSets
    dsimp only
    rw [countOcc_nil]
    split <;> simp
  | cons t rest ih =>
    intro sn dp wn
    unfold scanSets
    dsimp only
    by_cases hm : sn.contains t = true
    · rw [if_pos hm, ih, countOcc_cons, insElem_contains]
      by_cases hts : t = S <;> by_cases hsn : S ∈ sn <;> by_cases hdp : S ∈ dp <;>
        simp [hts, hsn, hdp, eq_comm] <;>
        first
          | omega
          | (subst hts; exact absurd (contains_iff_mem.mpr hsn) hm)
          | (subst hts; exact absurd (contains_iff_mem.mp hm) hsn)
          | exact fun he => absurd he.symm hts
    · rw [if_neg hm, ih, countOcc_cons, contains_cons_str]
      by_cases hts : t = S <;> by_cases hsn : S ∈ sn <;> by_cases hdp : S ∈ dp <;>
        simp [hts, hsn, hdp, eq_comm] <;>
        first
          | omega
          | (subst hts; exact absurd (contains_iff_mem.mpr hsn) hm)
          | (subst hts; exact absurd (contains_iff_mem.mp hm) hsn)
          | exact fun he => absurd he.symm hts

theorem listOcc_nil (S : String) : listOcc S [] = 0 := rfl

theorem listOcc_cons (S : String) (arg : Argument) (rest : List Argument) :
    listOcc S (arg :: rest) = argOcc S arg + listOcc S rest := by
  simp [listOcc]

theorem aliasStep_warnings (ty : SchemaArgType) (i : Nat) (arg : Argument) (S : String)
    (seen : List String) (acc : InitAcc) :
    countOcc S (aliasStep ty i arg seen acc).2.warnings =
      countOcc S acc.warnings +
        (if seen.contains S = true then argOcc S arg else argOcc S arg - 1) := by
  obtain ⟨w, c, d, wr⟩ := acc
  unfold aliasStep argOcc
  rcases arg.alias_info with _ | ai
  · dsimp only
    split <;> omega
  · dsimp only
    by_cases hw : ai.isWildcardAfter = true
    · rw [if_pos hw, if_pos hw]
      dsimp only
      split <;> omega
    · rw [if_neg hw, if_neg hw]
      dsimp only
      rw [scanSets_warnings]

theorem aliasStep_seen (ty : SchemaArgType) (i : Nat) (arg : Argument) (S : String)
    (seen : List String) (acc : InitAcc) :
    ((aliasStep ty i arg seen acc).1.contains S : Bool) =
      (seen.contains S || decide (1 ≤ argOcc S arg)) := by
  obtain ⟨w, c, d, wr⟩ := acc
  unfold aliasStep argOcc
  rcases arg.alias_info with _ | ai
  · dsimp only
    simp
  · dsimp only
    by_cases hw : ai.isWildcardAfter = true
    · rw [if_pos hw, if_pos hw]
      dsimp only
      simp
    · rw [if_neg hw, if_neg hw]
      dsimp only
      rw [scanSets_seen]

theorem aliasStep_duplicates (ty : SchemaArgType) (i : Nat) (arg : Argument) (S : String)
    (seen : List String) (acc : InitAcc) :
    ((aliasStep ty i arg seen acc).2.duplicates.contains S : Bool) =
      (acc.duplicates.contains S ||
        (if seen.contains S = true then decide (1 ≤ argOcc S arg)
         else decide (2 ≤ argOcc S arg))) := by
  obtain ⟨w, c, d, wr⟩ := acc
  unfold aliasStep argOcc
  rcases arg.alias_info with _ | ai
  · dsimp only
    split <;> simp
  · dsimp only
    by_cases hw : ai.isWildcardAfter = true
    · rw [if_pos hw, if_pos hw]
      dsimp only
      split <;> simp
    · rw [if_neg hw, if_neg hw]
      dsimp only
      rw [scanSets_duplicates]

theorem aliasStep_wildcard_mono (ty : SchemaArgType) (i : Nat) (arg : Argument)
    (seen : List String) (acc : InitAcc) {x : SchemaArgument} (h : x ∈ acc.wildcard) :
    x ∈ (aliasStep ty i arg seen acc).2.wildcard := by
  obtain ⟨w, c, d, wr⟩ := acc
  unfold aliasStep
  rcases arg.alias_info with _ | ai
  · exact h
  · dsimp only
    by_cases hw : ai.isWildcardAfter = true
    · rw [if_pos hw]
      exact insElem_mono h
    · rw [if_neg hw]
      exact h

theorem containerStep_warnings (ty : SchemaArgType) (i : Nat) (t : SchemaType) (acc : InitAcc) :
    (containerStep ty i t acc).warnings = acc.warnings := by
  unfold containerStep
  rcases getAliasTypeSetContainedTypes (mapTypeToAliasTypeSet t) with _ | ts
  · rfl
  · dsimp only
    split <;> rfl

theorem containerStep_duplicates (ty : SchemaArgType) (i : Nat) (t : SchemaType) (acc : InitAcc) :
    (containerStep ty i t acc).duplicates = acc.duplicates := by
  unfold containerStep
  rcases getAliasTypeSetContainedTypes (mapTypeToAliasTypeSet t) with _ | ts
  · rfl
  · dsimp only
    split <;> rfl

theorem containerStep_wildcard (ty : SchemaArgType) (i : Nat) (t : SchemaType) (acc : InitAcc) :
    (containerStep ty i t acc).wildcard = acc.wildcard := by
  unfold containerStep
  rcases getAliasTypeSetContainedTypes (mapTypeToAliasTypeSet t) with _ | ts
  · rfl
  · dsimp only
    split <;> rfl

theorem scanArguments_warnings (ty : SchemaArgType) (S : String) (args : List Argument) :
    ∀ (i : Nat) (seen : List String) (acc : InitAcc),
      countOcc S (scanArguments ty args i seen acc).warnings =
        countOcc S acc.warnings +
          (if seen.contains S = true then listOcc S args else listOcc S args - 1) := by
  induction args with
  | nil =>
    intro i seen acc
    unfold scanArguments
    rw [listOcc_nil]
    split <;> omega
  | cons arg rest ih =>
    intro i seen acc
    unfold scanArguments
    dsimp only
    rw [ih, containerStep_warnings, aliasStep_warnings, aliasStep_seen, listOcc_cons]
    by_cases hsn : S ∈ seen <;> simp [hsn] <;>
      by_cases h1 : 1 ≤ argOcc S arg <;> (try simp [h1]) <;> omega

theorem scanArguments_duplicates (ty : SchemaArgType) (S : String) (args : List Argument) :
    ∀ (i : Nat) (seen : List String) (acc : InitAcc),
      ((scanArguments ty args i seen acc).duplicates.contains S : Bool) =
        (acc.duplicates.contains S ||
          (if seen.contains S = true then decide (1 ≤ listOcc S args)
           else decide (2 ≤ listOcc S args))) := by
  induction args with
  | nil =>
    intro i seen acc
    unfold scanArguments
    rw [listOcc_nil]
    split <;> simp
  | cons arg rest ih =>
    intro i seen acc
    unfold scanArguments
    dsimp only
    rw [ih, containerStep_duplicates, aliasStep_duplicates, aliasStep_seen, listOcc_cons]
    apply boolExt
    by_cases hsn : S ∈ seen <;> by_cases hdp : S ∈ acc.duplicates <;>
      simp [hsn, hdp] <;>
      by_cases h1 : 1 ≤ argOcc S arg <;> (try simp [h1]) <;> omega

theorem scanArguments_wildcard_mono (ty : SchemaArgType) (args : List Argument) :
    ∀ (i : Nat) (seen : List String) (acc : InitAcc) (x : SchemaArgument),
      x ∈ acc.wildcard → x ∈ (scanArguments ty args i seen acc).wildcard := by
  induction args with
  | nil =>
    intro i seen acc x h
    exact h
  | cons arg rest ih =>
    intro i seen acc x h
    unfold scanArguments
    dsimp only
    apply ih
    rw [containerStep_wildcard]
    exact aliasStep_wildcard_mono ty i arg seen acc h

theorem consFold_mono {dups : List String} {x : SchemaArgument} :
    ∀ (sets : List String) (w : List SchemaArgument) (y : SchemaArgument), y ∈ w →
      y ∈ sets.foldl (fun acc set => if dups.contains set then insElem acc x else acc) w := by
  intro sets
  induction sets with
  | nil =>
    intro w y h
    exact h
  | cons t rest ih =>
    intro w y h
    rw [List.foldl_cons]
    apply ih
    split
    · exact insElem_mono h
    · exact h

theorem consFold_mem {dups : List String} {x : SchemaArgument} {S : String} :
    ∀ (sets : List String) (w : List SchemaArgument), S ∈ sets → dups.contains S = true →
      x ∈ sets.foldl (fun acc set => if dups.contains set then insElem acc x else acc) w := by
  intro sets
  induction sets with
  | nil =>
    intro w h hd
    simp at h
  | cons t rest ih =>
    intro w hS hd
    rw [List.foldl_cons]
    rcases List.mem_cons.mp hS with heq | hS2
    · subst heq
      rw [if_pos hd]
      exact consFold_mono rest _ _ (insElem_mem.mpr (Or.inl rfl))
    · exact ih _ hS2 hd

theorem ensureConservativityGo_mono (dups : List String) :
    ∀ (args : List Argument) (ty : SchemaArgType) (k : Nat) (w : List SchemaArgument)
      (y : SchemaArgument), y ∈ w → y ∈ ensureConservativityGo dups args ty k w := by
  intro args
  induction args with
  | nil =>
    intro ty k w y h
    exact h
  | cons arg rest ih =>
    intro ty k w y h
    unfold ensureConservativityGo
    dsimp only
    apply ih
    rcases arg.alias_info with _ | ai
    · exact h
    · exact consFold_mono _ _ _ h

theorem ensureConservativityGo_mem (dups : List String) :
    ∀ (args : List Argument) (ty : SchemaArgType) (k : Nat) (w : List SchemaArgument)
      (p : Nat) (ai : AliasInfo) (S : String),
      (args.getD p default).alias_info = some ai → p < args.length →
      S ∈ ai.afterSets → dups.contains S = true →
      ⟨ty, k + p⟩ ∈ ensureConservativityGo dups args ty k w := by
  intro args
  induction args with
  | nil =>
    intro ty k w p ai S hai hp hS hd
    simp at hp
  | cons arg rest ih =>
    intro ty k w p ai S hai hp hS hd
    unfold ensureConservativityGo
    dsimp only
    cases p with
    | zero =>
      apply ensureConservativityGo_mono
      have hai0 : arg.alias_info = some ai := by simpa using hai
      rw [hai0]
      dsimp only
      rw [Nat.add_zero]
      exact consFold_mem ai.afterSets w hS hd
    | succ q =>
      have hkq : k + (q + 1) = (k + 1) + q := by omega
      rw [hkq]
      exact ih ty (k + 1) _ q ai S (by simpa using hai) (by simpa using hp) hS hd

theorem init_wildcard_eq (schema : FunctionSchema) :
    (SchemaInfo.init schema).wildcard_set =
      ensureConservativityGo
        (scanArguments .output schema.returns 0 []
          (scanArguments .input schema.arguments 0 [] ⟨[], [], [], []⟩)).duplicates
        schema.returns .output 0
        (ensureConservativityGo
          (scanArguments .output schema.returns 0 []
            (scanArguments .input schema.arguments 0 [] ⟨[], [], [], []⟩)).duplicates
          schema.arguments .input 0
          (scanArguments .output schema.returns 0 []
            (scanArguments .input schema.arguments 0 [] ⟨[], [], [], []⟩)).wildcard) := rfl

theorem init_warnings_eq (schema : FunctionSchema) :
    (SchemaInfo.init schema).warnings =
      (scanArguments .output schema.returns 0 []
        (scanArguments .input schema.arguments 0 [] ⟨[], [], [], []⟩)).warnings := rfl

/-- C7 amended: when an alias-set name is scanned more than once over the
non-wildcard-after annotated entries of one list (total occurrence count
at least two), every entry of either list whose after-sets contain that
name is in the wildcard set after classification; the warning diagnostic
is emitted once per occurrence of the name beyond the first in each list
(so exactly once per duplicate name precisely when the name occurs
exactly twice in one list, and more often otherwise, as the
counterexample shows). -/
theorem C7_duplicate_alias_sets_conservative (schema : FunctionSchema) (S : String)
    (ty : SchemaArgType) (p : Nat) (ai : AliasInfo)
    (hdup : 2 ≤ listOcc S schema.arguments ∨ 2 ≤ listOcc S schema.returns)
    (hp : p < (schema.getCorrectList ty).length)
    (hai : ((schema.getCorrectList ty).getD p default).alias_info = some ai)
    (hS : S ∈ ai.afterSets) :
    (SchemaInfo.init schema).wildcard_set.contains ⟨ty, p⟩ = true ∧
    countOcc S (SchemaInfo.init schema).warnings =
      (listOcc S schema.arguments - 1) + (listOcc S schema.returns - 1) := by
  have hdupS : ((scanArguments .output schema.returns 0 []
      (scanArguments .input schema.arguments 0 [] ⟨[], [], [], []⟩)).duplicates.contains S : Bool)
      = true := by
    rw [scanArguments_duplicates, scanArguments_duplicates]
    rcases hdup with h | h <;> simp [h]
  constructor
  · rw [contains_iff_mem, init_wildcard_eq]
    cases ty with
    | input =>
      apply ensureConservativityGo_mono
      have hm := ensureConservativityGo_mem
        (scanArguments .output schema.returns 0 []
          (scanArguments .input schema.arguments 0 [] ⟨[], [], [], []⟩)).duplicates
        schema.arguments .input 0
        (scanArguments .output schema.returns 0 []
          (scanArguments .input schema.arguments 0 [] ⟨[], [], [], []⟩)).wildcard
        p ai S hai hp hS hdupS
      simpa using hm
    | output =>
      have hm := ensureConservativityGo_mem
        (scanArguments .output schema.returns 0 []
          (scanArguments .input schema.arguments 0 [] ⟨[], [], [], []⟩)).duplicates
        schema.returns .output 0
        (ensureConservativityGo
          (scanArguments .output schema.returns 0 []
            (scanArguments .input schema.arguments 0 [] ⟨[], [], [], []⟩)).duplicates
          schema.arguments .input 0
          (scanArguments .output schema.returns 0 []
            (scanArguments .input schema.arguments 0 [] ⟨[], [], [], []⟩)).wildcard)
        p ai S hai hp hS hdupS
      simpa using hm
  · rw [init_warnings_eq, scanArguments_warnings, scanArguments_warnings]
    simp [countOcc_nil]

/-- Witness for the amended C7 at a schema with one alias-set name on
exactly two arguments. -/
theorem C7_duplicate_alias_sets_conservative_witness :
    (2 ≤ listOcc "a" schemaC7.arguments ∨ 2 ≤ listOcc "a" schemaC7.returns) ∧
    ((SchemaInfo.init schemaC7).wildcard_set.contains ⟨.input, 0⟩ = true ∧
      countOcc "a" (SchemaInfo.init schemaC7).warnings =
        (listOcc "a" schemaC7.arguments - 1) + (listOcc "a" schemaC7.returns - 1)) :=
  ⟨Or.inl (by decide),
    C7_duplicate_alias_sets_conservative schemaC7 "a" .input 0 ⟨["a"], true, false⟩
      (Or.inl (by decide)) (by decide) rfl (by decide)⟩

end SchemaInfoSpec
